import Mathlib

/-! # AVL tree with order statistics and range sums (`onefile.cpp`)

A shallow embedding of `AVLTreeNode<T>` and `AVLTree<T>` from `src/onefile.cpp`.

Modelling decisions.

* `T` is instantiated at the mathematical integers (`main` uses `long long`);
  `int count` and `int height` are unbounded integers too, i.e. the development covers
  executions in which no aggregate overflows (fewer than `2^31` nodes, sums inside the
  range of `T`).
* `operator[]` takes a `std::size_t` and compares `int(idx)`.  It is embedded twice:
  `subscript` is the loop on a machine index (a 64-bit `std::size_t`, a 32-bit `int`, the
  conversion keeping the low 32 bits), and `index` is the same loop on indices in the range
  of `int`, where `int(idx)` is `idx` and no subtraction wraps; the two agree there
  (`subscript_eq_index`).
* An owning pointer `AVLTreeNode<T>*` is a value of the inductive type `Node`;
  `nullptr` is `Node.nil`.  Every node carries its stored `count`, `height` and `sum`
  fields, which are *not* recomputed by the embedding: only `updateValues` writes them,
  exactly where the source calls it.
* A dereference of `nullptr` and a failing `assert` are the error result `none`.
* `insert` and `erase` collect a vector `path` of slots (`AVLTreeNode<T>**`) root to leaf and
  `balance` walks it in reverse, rewriting each slot.  A slot deeper in the path lives
  inside the node the previous slot points to, so walking the reversed path is the
  unwinding of a recursion over the descent: the embedding descends recursively and
  applies the body of the `balance` loop (`balanceStep`) to each slot of the path on the
  way back, deepest first.
-/

namespace AVL

/-- The struct `AVLTreeNode<T>`, fields in declaration order; `nil` is `nullptr`. -/
inductive Node where
  | nil : Node
  | mk (left right : Node) (value : Int) (count : Int) (height : Int) (sum : Int) : Node
  deriving DecidableEq

namespace Node

/-- The constructor `AVLTreeNode(T value)`: `count = 1`, `height = 1`, `sum = T()`,
no children. -/
def new (value : Int) : Node := mk nil nil value 1 1 0

/-- The expression `p != nullptr ? p->count : 0`. -/
def countOr0 : Node → Int
  | nil => 0
  | mk _ _ _ c _ _ => c

/-- The expression `p != nullptr ? p->height : 0`. -/
def heightOr0 : Node → Int
  | nil => 0
  | mk _ _ _ _ h _ => h

/-- The expression `p != nullptr ? p->sum : T()`. -/
def sumOr0 : Node → Int
  | nil => 0
  | mk _ _ _ _ _ s => s

/-- The method `updateValues()`; calling it through `nullptr` is an error. -/
def updateValues : Node → Option Node
  | nil => none
  | mk l r v _ _ _ =>
    some (mk l r v (countOr0 l + countOr0 r + 1)
      (max (heightOr0 l) (heightOr0 r) + 1)
      (sumOr0 l + sumOr0 r + v))

/-- The method `balanceFactor()`; calling it through `nullptr` is an error. -/
def balanceFactor : Node → Option Int
  | nil => none
  | mk l r _ _ _ _ => some (heightOr0 l - heightOr0 r)

/-- The method `left_rotate()`: `R = right; right = right->left; R->left = this;`
then `this->updateValues(); R->updateValues(); return R`. -/
def left_rotate : Node → Option Node
  | mk l (mk rl rr rv rc rh rs) v c h s => do
    let this ← updateValues (mk l rl v c h s)
    updateValues (mk this rr rv rc rh rs)
  | _ => none

/-- The method `right_rotate()`: `L = left; left = left->right; L->right = this;`
then `this->updateValues(); L->updateValues(); return L`. -/
def right_rotate : Node → Option Node
  | mk (mk ll lr lv lc lh ls) r v c h s => do
    let this ← updateValues (mk lr r v c h s)
    updateValues (mk ll this lv lc lh ls)
  | _ => none

/-- The field access `p->left`. -/
def left? : Node → Option Node
  | nil => none
  | mk l _ _ _ _ _ => some l

/-- The field access `p->right`. -/
def right? : Node → Option Node
  | nil => none
  | mk _ r _ _ _ _ => some r

/-- The assignment `p->left = l`. -/
def setLeft (l : Node) : Node → Option Node
  | nil => none
  | mk _ r v c h s => some (mk l r v c h s)

/-- The assignment `p->right = r`. -/
def setRight (r : Node) : Node → Option Node
  | nil => none
  | mk l _ v c h s => some (mk l r v c h s)

/-- The body of the loop of `AVLTree<T>::balance` for one slot `indirect`, as a function of
the node `*indirect` returning the node written back to the slot. -/
def balanceStep (n : Node) : Option Node := do
  let n ← updateValues n
  let bf ← balanceFactor n
  if bf ≥ 2 then do
    let l ← left? n
    let lbf ← balanceFactor l
    if lbf ≥ 1 then
      right_rotate n
    else do
      let l ← left_rotate l
      let n ← setLeft l n
      right_rotate n
  else if bf ≤ -2 then do
    let r ← right? n
    let rbf ← balanceFactor r
    if rbf ≤ -1 then
      left_rotate n
    else do
      let r ← right_rotate r
      let n ← setRight r n
      left_rotate n
  else
    some n

/-- The descent and rebalancing of `AVLTree<T>::insert` below one slot: the new node is
attached in the empty slot reached, and every slot of the path is rebalanced on the way
back. -/
def insert : Node → Int → Option Node
  | nil, value => balanceStep (new value)
  | mk l r v c h s, value =>
    if v > value then do
      let l ← insert l value
      balanceStep (mk l r v c h s)
    else do
      let r ← insert r value
      balanceStep (mk l r v c h s)

/-- The successor loop of `AVLTree<T>::erase` below a node `n` whose left child exists
(`n` is pointed to by a slot pushed on the path): returns the successor node as found
(the left-most node) and `n` after `tmp->left = (*successor)->right` and the rebalancing
of the pushed slots. -/
def detachSuccessor : Node → Option (Node × Node)
  | nil => none
  | mk nil _ _ _ _ _ => none
  | mk (mk nil sr sv sc sh ss) r v c h s => do
    let n ← balanceStep (mk sr r v c h s)
    some (mk nil sr sv sc sh ss, n)
  | mk (mk (mk a b x y z w) sr sv sc sh ss) r v c h s => do
    let (suc, l) ← detachSuccessor (mk (mk a b x y z w) sr sv sc sh ss)
    let n ← balanceStep (mk l r v c h s)
    some (suc, n)

/-- The structural edit of `AVLTree<T>::erase` at the slot holding the node to remove,
with the rebalancing of the slots pushed from that node on. -/
def eraseHere : Node → Option Node
  | nil => none
  | mk nil nil _ _ _ _ => some nil
  | mk (mk a b x y z w) nil _ _ _ _ => some (mk a b x y z w)
  | mk l (mk nil rr rv rc rh rs) _ _ _ _ => balanceStep (mk l rr rv rc rh rs)
  | mk l (mk (mk a b x y z w) rr rv rc rh rs) _ _ _ _ => do
    let (suc, r) ← detachSuccessor (mk (mk a b x y z w) rr rv rc rh rs)
    match suc with
    | nil => none
    | mk _ _ sv sc sh ss => balanceStep (mk l r sv sc sh ss)

/-- The method `AVLTree<T>::erase` below one slot.  The result is the new content of the slot
and whether the value was found; when it was not, nothing is written and nothing is
rebalanced. -/
def erase : Node → Int → Option (Node × Bool)
  | nil, _ => some (nil, false)
  | mk l r v c h s, value =>
    if v ≠ value then
      if v > value then do
        let (l1, found) ← erase l value
        if found then do
          let n ← balanceStep (mk l1 r v c h s)
          some (n, true)
        else some (mk l r v c h s, false)
      else do
        let (r1, found) ← erase r value
        if found then do
          let n ← balanceStep (mk l r1 v c h s)
          some (n, true)
        else some (mk l r v c h s, false)
    else do
      let n ← eraseHere (mk l r v c h s)
      some (n, true)

/-- The loop of `AVLTree<T>::find` from `direct` with accumulator `idx`. -/
def find : Node → Int → Int → Int
  | nil, _, _ => -1
  | mk l r v _ _ _, value, idx =>
    if v ≠ value then
      if v > value then find l value idx
      else find r value (idx + (countOr0 l + 1))
    else idx + countOr0 l

/-- The loop of `AVLTree<T>::upper_bound`. -/
def upper_bound : Node → Int → Int → Int
  | nil, _, idx => idx
  | mk l r v _ _ _, value, idx =>
    if v > value then upper_bound l value idx
    else upper_bound r value (idx + (countOr0 l + 1))

/-- The loop of `AVLTree<T>::lower_bound`. -/
def lower_bound : Node → Int → Int → Int
  | nil, _, idx => idx
  | mk l r v _ _ _, value, idx =>
    if v ≥ value then lower_bound l value idx
    else lower_bound r value (idx + (countOr0 l + 1))

/-- The loop of `AVLTree<T>::find_min` from `cur`. -/
def find_min : Node → Option Int
  | nil => none
  | mk nil _ v _ _ _ => some v
  | mk (mk a b x y z w) _ _ _ _ _ => find_min (mk a b x y z w)

/-- The loop of `AVLTree<T>::find_max` from `cur`. -/
def find_max : Node → Option Int
  | nil => none
  | mk _ nil v _ _ _ => some v
  | mk _ (mk a b x y z w) _ _ _ _ => find_max (mk a b x y z w)

/-- The loop of `AVLTree<T>::operator[]` from `cur`, with
`left = cur->left != nullptr ? cur->left->count : 0`, for an index in the range of `int`:
there `int(idx)` is `idx` and `idx -= left + 1` does not wrap.  The loop on an arbitrary
`std::size_t` is `subscript`. -/
def index : Node → Int → Option Int
  | nil, _ => none
  | mk l r v _ _ _, idx =>
    if countOr0 l ≠ idx then
      if countOr0 l < idx then index r (idx - (countOr0 l + 1))
      else index l idx
    else some v

/-- The conversion `int(idx)` of a `std::size_t` to a 32-bit `int`: the low 32 bits, read
in two's complement. -/
def intOfSizeT (idx : Nat) : Int :=
  if idx % 4294967296 < 2147483648 then ((idx % 4294967296 : Nat) : Int)
  else ((idx % 4294967296 : Nat) : Int) - 4294967296

/-- The assignment `idx -= k` for a 64-bit `std::size_t idx` and an `int k`: `k` is
converted to `std::size_t` and the difference is taken modulo `2^64`. -/
def subSizeT (idx : Nat) (k : Int) : Nat :=
  (((idx : Int) - k) % 18446744073709551616).toNat

/-- The loop of `AVLTree<T>::operator[]` from `cur` on a `std::size_t idx`: both tests
compare `left` with `int(idx)`, and `idx -= left + 1` is `std::size_t` arithmetic. -/
def subscript : Node → Nat → Option Int
  | nil, _ => none
  | mk l r v _ _ _, idx =>
    if countOr0 l ≠ intOfSizeT idx then
      if countOr0 l < intOfSizeT idx then subscript r (subSizeT idx (countOr0 l + 1))
      else subscript l idx
    else some v

/-- The first loop of `AVLTree<T>::sum` from `subtree` with the accumulator `res`: the
descent to the first node whose value lies in `[l, r]`.  The result is `(subtree, none)`
when the loop ends at `subtree`, and `(_, some res)` when the loop executes `return res`.
Inside the loop the test `else if (subtree->value > r)` is reached only when it holds. -/
def sumSplit : Node → Int → Int → Int → Option (Node × Option Int)
  | nil, _, _, _ => none
  | mk a b v c h s, l, r, res =>
    if v < l ∨ v > r then
      if v < l then
        match b with
        | nil => some (nil, some res)
        | mk _ _ _ _ _ _ => sumSplit b l r res
      else
        match a with
        | nil => some (nil, some res)
        | mk _ _ _ _ _ _ => sumSplit a l r res
    else some (mk a b v c h s, none)

/-- The statement closing an iteration of the second loop of `AVLTree<T>::sum`:
`if (left_side->value >= l) { res += left_side->value; if (left_side->right != nullptr)
res += left_side->right->sum; }`. -/
def sumLeftAdd : Node → Int → Int → Option Int
  | nil, _, _ => none
  | mk _ b v _ _ _, l, res =>
    if v ≥ l then
      match b with
      | nil => some (res + v)
      | mk _ _ _ _ _ s => some (res + v + s)
    else some res

/-- The second loop of `AVLTree<T>::sum` from `left_side` with the accumulator `res`. -/
def sumLeftLoop : Node → Int → Int → Option Int
  | nil, _, _ => none
  | mk nil nil _ _ _ _, _, res => some res
  | mk a b v _ _ _, l, res =>
    if v ≥ l then
      match a with
      | nil => some res
      | mk _ _ _ _ _ _ => do
        let res ← sumLeftAdd a l res
        sumLeftLoop a l res
    else
      match b with
      | nil => some res
      | mk _ _ _ _ _ _ => do
        let res ← sumLeftAdd b l res
        sumLeftLoop b l res

/-- The statement closing an iteration of the third loop of `AVLTree<T>::sum`:
`if (right_side->value <= r) { res += right_side->value; if (right_side->left != nullptr)
res += right_side->left->sum; }`. -/
def sumRightAdd : Node → Int → Int → Option Int
  | nil, _, _ => none
  | mk a _ v _ _ _, r, res =>
    if v ≤ r then
      match a with
      | nil => some (res + v)
      | mk _ _ _ _ _ s => some (res + v + s)
    else some res

/-- The third loop of `AVLTree<T>::sum` from `right_side` with the accumulator `res`. -/
def sumRightLoop : Node → Int → Int → Option Int
  | nil, _, _ => none
  | mk nil nil _ _ _ _, _, res => some res
  | mk a b v _ _ _, r, res =>
    if v ≤ r then
      match b with
      | nil => some res
      | mk _ _ _ _ _ _ => do
        let res ← sumRightAdd b r res
        sumRightLoop b r res
    else
      match a with
      | nil => some res
      | mk _ _ _ _ _ _ => do
        let res ← sumRightAdd a r res
        sumRightLoop a r res

/-- The in-order sequence of the values stored below a node. -/
def toList : Node → List Int
  | nil => []
  | mk l r v _ _ _ => toList l ++ v :: toList r

end Node

/-- The class `AVLTree<T>`: the private members `_size` and `root`. -/
structure AVLTree where
  _size : Int
  root : Node
  deriving DecidableEq

namespace AVLTree

/-- The constructor `AVLTree()`. -/
def new : AVLTree := ⟨0, Node.nil⟩

/-- The method `insert`: descent, attachment, `balance(path)`, then `_size++`. -/
def insert (t : AVLTree) (value : Int) : Option AVLTree := do
  let root ← Node.insert t.root value
  some ⟨t._size + 1, root⟩

/-- The method `erase`: when the value is not found the method returns at once;
otherwise the structural edit, `balance(path)`, then `_size--`. -/
def erase (t : AVLTree) (value : Int) : Option AVLTree := do
  let (root, found) ← Node.erase t.root value
  if found then some ⟨t._size - 1, root⟩ else some t

/-- The method `empty`. -/
def empty (t : AVLTree) : Bool := t._size == 0

/-- The method `size`. -/
def size (t : AVLTree) : Int := t._size

/-- The method `find`. -/
def find (t : AVLTree) (value : Int) : Int := Node.find t.root value 0

/-- The method `upper_bound`. -/
def upper_bound (t : AVLTree) (value : Int) : Int := Node.upper_bound t.root value 0

/-- The method `lower_bound`. -/
def lower_bound (t : AVLTree) (value : Int) : Int := Node.lower_bound t.root value 0

/-- The method `find_min`. -/
def find_min (t : AVLTree) : Option Int := Node.find_min t.root

/-- The method `find_max`. -/
def find_max (t : AVLTree) : Option Int := Node.find_max t.root

/-- The method `operator[]` for an index in the range of `int`. -/
def index (t : AVLTree) (idx : Int) : Option Int := Node.index t.root idx

/-- The method `operator[]` on a `std::size_t` index. -/
def subscript (t : AVLTree) (idx : Nat) : Option Int := Node.subscript t.root idx

/-- The method `sum`: `assert(l <= r)`, the early return on the empty tree, the descent
to the split node, `res += subtree->value`, and the two boundary walks. -/
def sum (t : AVLTree) (l r : Int) : Option Int :=
  if l ≤ r then
    let res : Int := 0
    match t.root with
    | Node.nil => some res
    | Node.mk a b v c h s => do
      let (subtree, ret) ← Node.sumSplit (Node.mk a b v c h s) l r res
      match ret with
      | some res => some res
      | none =>
        match subtree with
        | Node.nil => none
        | Node.mk _ _ sv _ _ _ => do
          let res := res + sv
          let res ← Node.sumLeftLoop subtree l res
          Node.sumRightLoop subtree r res
  else none

/-- The guarded push `if (p != nullptr) stack.push_back(p)` of `clear`; the head of the
list is `stack.back()`. -/
def pushIfNotNull (p : Node) (stack : List Node) : List Node :=
  match p with
  | Node.nil => stack
  | Node.mk _ _ _ _ _ _ => p :: stack

/-- The loop `while (!stack.empty())` of `clear`, as a function of the stack and of `_size`:
each iteration pops a node, pushes its children, decrements `_size` and deletes the node.
The first argument bounds the number of iterations (`none` when it is exhausted); a null
pointer on the stack would be dereferenced. -/
def clearLoop : Nat → List Node → Int → Option Int
  | _, [], size => some size
  | 0, _ :: _, _ => none
  | fuel + 1, node :: stack, size =>
    match node with
    | Node.nil => none
    | Node.mk l r _ _ _ _ => clearLoop fuel (pushIfNotNull r (pushIfNotNull l stack)) (size - 1)

/-- The number of nodes of a subtree, computed from its shape. -/
def nodeCount : Node → Nat
  | Node.nil => 0
  | Node.mk l r _ _ _ _ => nodeCount l + nodeCount r + 1

/-- The method `clear`: the root is pushed when it exists, the loop runs, then
`root = nullptr`.  The loop deletes one node per iteration, so it is given as many
iterations as the tree has nodes. -/
def clear (t : AVLTree) : Option AVLTree := do
  let size ← clearLoop (nodeCount t.root) (pushIfNotNull t.root []) t._size
  some ⟨size, Node.nil⟩

/-- The in-order sequence of the stored values. -/
def toList (t : AVLTree) : List Int := Node.toList t.root

end AVLTree

/-- A call of one of the two mutating methods. -/
inductive Op where
  | insert (value : Int) : Op
  | erase (value : Int) : Op
  deriving DecidableEq

/-- Perform one call on a tree. -/
def Op.apply (t : AVLTree) : Op → Option AVLTree
  | Op.insert v => t.insert v
  | Op.erase v => t.erase v

/-- Perform a sequence of calls, first to last. -/
def run : List Op → AVLTree → Option AVLTree
  | [], t => some t
  | op :: ops, t => (op.apply t).bind (run ops)

/-- A tree obtained from the empty tree by a finite sequence of `insert` and `erase`
calls. -/
def Reachable (t : AVLTree) : Prop := ∃ ops : List Op, run ops AVLTree.new = some t

/-! ## Specification-side notions -/

/-- Every node's stored aggregates are exact: `count`, `height` and `sum` are what
`updateValues` computes from the node's current children, a missing child counting as 0. -/
def Node.AggOK : Node → Prop
  | Node.nil => True
  | Node.mk l r v c h s =>
    Node.AggOK l ∧ Node.AggOK r ∧
    c = Node.countOr0 l + Node.countOr0 r + 1 ∧
    h = max (Node.heightOr0 l) (Node.heightOr0 r) + 1 ∧
    s = Node.sumOr0 l + Node.sumOr0 r + v

/-- Every node satisfies `|balanceFactor()| <= 1`. -/
def Node.Balanced : Node → Prop
  | Node.nil => True
  | Node.mk l r _ _ _ _ =>
    Node.Balanced l ∧ Node.Balanced r ∧
    -1 ≤ Node.heightOr0 l - Node.heightOr0 r ∧ Node.heightOr0 l - Node.heightOr0 r ≤ 1

/-- The height of a subtree, computed from its shape (number of nodes on a longest
downward path). -/
def Node.realHeight : Node → Nat
  | Node.nil => 0
  | Node.mk l r _ _ _ _ => max (Node.realHeight l) (Node.realHeight r) + 1

/-- The in-order sequence is non-decreasing. -/
def Node.Ordered (n : Node) : Prop := (Node.toList n).Sorted (· ≤ ·)

/-- The invariant of the class between public calls: exact aggregates, a non-decreasing
in-order sequence, and `_size` equal to the root aggregate. -/
def AVLTree.Inv (t : AVLTree) : Prop :=
  Node.AggOK t.root ∧ Node.Ordered t.root ∧ t._size = Node.countOr0 t.root

/-- Every node's stored `height` is exact: it is what `updateValues` computes from the
node's current children. -/
def Node.HeightOK : Node → Prop
  | Node.nil => True
  | Node.mk l r _ _ h _ =>
    Node.HeightOK l ∧ Node.HeightOK r ∧ h = max (Node.heightOr0 l) (Node.heightOr0 r) + 1

/-- At every node, the values of the left subtree are strictly less than the node's value
and the values of the right subtree are greater than or equal to it. -/
def Node.StrictLeftOrdered : Node → Prop
  | Node.nil => True
  | Node.mk l r v _ _ _ =>
    Node.StrictLeftOrdered l ∧ Node.StrictLeftOrdered r ∧
    (∀ a ∈ Node.toList l, a < v) ∧ (∀ b ∈ Node.toList r, v ≤ b)

/-- At every node, the values of the left subtree are less than or equal to the node's
value and the values of the right subtree are greater than or equal to it. -/
def Node.SearchOrdered : Node → Prop
  | Node.nil => True
  | Node.mk l r v _ _ _ =>
    Node.SearchOrdered l ∧ Node.SearchOrdered r ∧
    (∀ a ∈ Node.toList l, a ≤ v) ∧ (∀ b ∈ Node.toList r, v ≤ b)

/-- The number of `insert` calls of a sequence of calls. -/
def insertCalls : List Op → Nat
  | [] => 0
  | Op.insert _ :: ops => insertCalls ops + 1
  | Op.erase _ :: ops => insertCalls ops

/-- The number of `erase` calls of a sequence of calls, performed from the tree `t` on,
whose value is stored in the tree at the time of the call. -/
def presentErases : List Op → AVLTree → Nat
  | [], _ => 0
  | Op.insert v :: ops, t =>
    match t.insert v with
    | some t1 => presentErases ops t1
    | none => 0
  | Op.erase v :: ops, t =>
    (if v ∈ t.toList then 1 else 0) +
      match t.erase v with
      | some t1 => presentErases ops t1
      | none => 0

/-- A node without children whose aggregates are exact. -/
def Node.leaf (value : Int) : Node := Node.mk Node.nil Node.nil value 1 1 value

/-- The calls `insert(5), insert(3), insert(8), insert(1), insert(4), insert(7), insert(9)`. -/
def scenarioOps : List Op :=
  [Op.insert 5, Op.insert 3, Op.insert 8, Op.insert 1, Op.insert 4, Op.insert 7, Op.insert 9]

/-- The tree the calls `scenarioOps` build from the empty tree. -/
def scenarioTree : AVLTree :=
  ⟨7, Node.mk (Node.mk (Node.leaf 1) (Node.leaf 4) 3 3 2 8)
    (Node.mk (Node.leaf 7) (Node.leaf 9) 8 3 2 24) 5 7 3 37⟩

/-- The tree `scenarioTree` after `erase(5)`. -/
def scenarioErased : AVLTree :=
  ⟨6, Node.mk (Node.mk (Node.leaf 1) (Node.leaf 4) 3 3 2 8)
    (Node.mk Node.nil (Node.leaf 9) 8 2 2 17) 7 6 3 32⟩

/-- Eight insertions that build a balanced tree of height 4, followed by `erase(9)`. -/
def unbalancingOps : List Op :=
  [Op.insert 6, Op.insert 3, Op.insert 8, Op.insert 1, Op.insert 4, Op.insert 9,
    Op.insert 2, Op.insert 5, Op.erase 9]

/-- The tree the calls `unbalancingOps` build from the empty tree: the node holding 3 has a
left subtree of height 2 and no right subtree. -/
def unbalancedTree : AVLTree :=
  ⟨7, Node.mk (Node.mk (Node.mk Node.nil (Node.leaf 2) 1 2 2 3) Node.nil 3 3 3 6)
    (Node.mk (Node.leaf 5) (Node.leaf 8) 6 3 2 19) 4 7 4 29⟩

/-- The calls `insert(2), insert(2), insert(2)`. -/
def duplicateOps : List Op := [Op.insert 2, Op.insert 2, Op.insert 2]

/-- The tree the calls `duplicateOps` build from the empty tree: the third insertion
rotates the root left, which leaves a 2 in the left subtree of the root 2. -/
def duplicateTree : AVLTree :=
  ⟨3, Node.mk (Node.leaf 2) (Node.leaf 2) 2 3 2 6⟩

/-! ## Aggregates -/

namespace Node

@[simp] theorem countOr0_nil : countOr0 nil = 0 := rfl

@[simp] theorem heightOr0_nil : heightOr0 nil = 0 := rfl

@[simp] theorem heightOr0_mk (l r : Node) (v c h s : Int) : heightOr0 (mk l r v c h s) = h := rfl

@[simp] theorem sumOr0_nil : sumOr0 nil = 0 := rfl

@[simp] theorem sumOr0_mk (l r : Node) (v c h s : Int) : sumOr0 (mk l r v c h s) = s := rfl

@[simp] theorem toList_nil : toList nil = [] := rfl

@[simp] theorem toList_mk (l r : Node) (v c h s : Int) :
    toList (mk l r v c h s) = toList l ++ v :: toList r := rfl

theorem aggOK_mk_iff (l r : Node) (v c h s : Int) :
    AggOK (mk l r v c h s) ↔
      AggOK l ∧ AggOK r ∧ c = countOr0 l + countOr0 r + 1 ∧
        h = max (heightOr0 l) (heightOr0 r) + 1 ∧ s = sumOr0 l + sumOr0 r + v := by
  simp [AggOK]

theorem aggOK_updated {l r : Node} (hl : AggOK l) (hr : AggOK r) (v : Int) :
    AggOK (mk l r v (countOr0 l + countOr0 r + 1) (max (heightOr0 l) (heightOr0 r) + 1)
      (sumOr0 l + sumOr0 r + v)) := by
  simp [AggOK, hl, hr]

theorem heightOr0_nonneg : ∀ {n : Node}, AggOK n → 0 ≤ heightOr0 n
  | nil, _ => by simp [heightOr0]
  | mk l r v c h s, hn => by
    obtain ⟨hl, hr, -, hh, -⟩ := (aggOK_mk_iff _ _ _ _ _ _).1 hn
    have := heightOr0_nonneg hl
    have := heightOr0_nonneg hr
    show 0 ≤ h
    omega

theorem heightOr0_pos {l r : Node} {v c h s : Int} (hn : AggOK (mk l r v c h s)) :
    1 ≤ h := by
  obtain ⟨hl, hr, -, hh, -⟩ := (aggOK_mk_iff _ _ _ _ _ _).1 hn
  have := heightOr0_nonneg hl
  have := heightOr0_nonneg hr
  omega

theorem ne_nil_of_heightOr0_pos {n : Node} (h : 1 ≤ heightOr0 n) : n ≠ nil := by
  rintro rfl
  simp [heightOr0] at h

theorem heightOr0_eq_realHeight : ∀ {n : Node}, AggOK n → heightOr0 n = (realHeight n : Int)
  | nil, _ => by simp [heightOr0, realHeight]
  | mk l r v c h s, hn => by
    obtain ⟨hl, hr, -, hh, -⟩ := (aggOK_mk_iff _ _ _ _ _ _).1 hn
    have h1 := heightOr0_eq_realHeight hl
    have h2 := heightOr0_eq_realHeight hr
    show h = ((realHeight (mk l r v c h s) : Nat) : Int)
    rw [hh, h1, h2]
    simp [realHeight]

theorem countOr0_eq_length : ∀ {n : Node}, AggOK n → countOr0 n = ((toList n).length : Int)
  | nil, _ => by simp [countOr0, toList]
  | mk l r v c h s, hn => by
    obtain ⟨hl, hr, hc, -, -⟩ := (aggOK_mk_iff _ _ _ _ _ _).1 hn
    have h1 := countOr0_eq_length hl
    have h2 := countOr0_eq_length hr
    show c = ((toList (mk l r v c h s)).length : Int)
    rw [hc, h1, h2]
    simp [toList]
    ring

theorem sumOr0_eq_sum : ∀ {n : Node}, AggOK n → sumOr0 n = (toList n).sum
  | nil, _ => by simp [sumOr0, toList]
  | mk l r v c h s, hn => by
    obtain ⟨hl, hr, -, -, hs⟩ := (aggOK_mk_iff _ _ _ _ _ _).1 hn
    have h1 := sumOr0_eq_sum hl
    have h2 := sumOr0_eq_sum hr
    show s = (toList (mk l r v c h s)).sum
    rw [hs, h1, h2]
    simp [toList]
    ring

theorem toList_eq_nil_iff {n : Node} : toList n = [] ↔ n = nil := by
  cases n <;> simp [toList]

/-! ## Rotations and the rebalancing step -/

theorem right_rotate_spec {ll lr r : Node} (hll : AggOK ll) (hlr : AggOK lr) (hr : AggOK r)
    (lv lc lh ls v c h s : Int) :
    ∃ n, right_rotate (mk (mk ll lr lv lc lh ls) r v c h s) = some n ∧ AggOK n ∧
      toList n = toList (mk ll lr lv lc lh ls) ++ v :: toList r := by
  refine ⟨_, rfl, ?_, ?_⟩
  · exact aggOK_updated hll (aggOK_updated hlr hr v) lv
  · simp [toList]

theorem left_rotate_spec {l rl rr : Node} (hl : AggOK l) (hrl : AggOK rl) (hrr : AggOK rr)
    (rv rc rh rs v c h s : Int) :
    ∃ n, left_rotate (mk l (mk rl rr rv rc rh rs) v c h s) = some n ∧ AggOK n ∧
      toList n = toList l ++ v :: toList (mk rl rr rv rc rh rs) := by
  refine ⟨_, rfl, ?_, ?_⟩
  · exact aggOK_updated (aggOK_updated hl hrl v) hrr rv
  · simp [toList]

theorem balanceStep_spec {l r : Node} (hl : AggOK l) (hr : AggOK r) (v c h s : Int) :
    ∃ n, balanceStep (mk l r v c h s) = some n ∧ AggOK n ∧
      toList n = toList l ++ v :: toList r := by
  have hl0 := heightOr0_nonneg hl
  have hr0 := heightOr0_nonneg hr
  simp only [balanceStep, updateValues, balanceFactor, left?, right?, Option.bind_eq_bind,
    Option.some_bind]
  by_cases h2 : heightOr0 l - heightOr0 r ≥ 2
  · rw [if_pos h2]
    cases l with
    | nil => simp only [heightOr0_nil] at h2; omega
    | mk ll lr lv lc lh ls =>
      obtain ⟨hll, hlr, -, hlh, -⟩ := (aggOK_mk_iff _ _ _ _ _ _).1 hl
      simp only [balanceFactor, Option.some_bind]
      by_cases h1 : heightOr0 ll - heightOr0 lr ≥ 1
      · rw [if_pos h1]
        exact right_rotate_spec hll hlr hr _ _ _ _ _ _ _ _
      · rw [if_neg h1]
        cases lr with
        | nil =>
          have := heightOr0_nonneg hll
          simp only [heightOr0_nil, heightOr0_mk] at h1 h2 hlh hr0
          omega
        | mk a b x y z w =>
          obtain ⟨ha, hb, -, -, -⟩ := (aggOK_mk_iff _ _ _ _ _ _).1 hlr
          refine ⟨_, rfl, ?_, ?_⟩
          · exact aggOK_updated (aggOK_updated hll ha lv) (aggOK_updated hb hr v) x
          · simp [toList]
  · rw [if_neg h2]
    by_cases h3 : heightOr0 l - heightOr0 r ≤ -2
    · rw [if_pos h3]
      cases r with
      | nil => simp only [heightOr0_nil] at h3; omega
      | mk rl rr rv rc rh rs =>
        obtain ⟨hrl, hrr, -, hrh, -⟩ := (aggOK_mk_iff _ _ _ _ _ _).1 hr
        simp only [balanceFactor, Option.some_bind]
        by_cases h1 : heightOr0 rl - heightOr0 rr ≤ -1
        · rw [if_pos h1]
          exact left_rotate_spec hl hrl hrr _ _ _ _ _ _ _ _
        · rw [if_neg h1]
          cases rl with
          | nil =>
            have := heightOr0_nonneg hrr
            simp only [heightOr0_nil, heightOr0_mk] at h1 h3 hrh hl0
            omega
          | mk a b x y z w =>
            obtain ⟨ha, hb, -, -, -⟩ := (aggOK_mk_iff _ _ _ _ _ _).1 hrl
            refine ⟨_, rfl, ?_, ?_⟩
            · exact aggOK_updated (aggOK_updated hl ha v) (aggOK_updated hb hrr rv) x
            · simp [toList]
    · rw [if_neg h3]
      exact ⟨_, rfl, aggOK_updated hl hr v, by simp [toList]⟩

theorem balanceStep_new (value : Int) :
    balanceStep (new value) = some (mk nil nil value 1 1 value) := by
  simp [balanceStep, new, updateValues, balanceFactor, countOr0, heightOr0, sumOr0]

/-! ## Order -/

theorem ordered_mk_iff (l r : Node) (v c h s : Int) :
    Ordered (mk l r v c h s) ↔
      Ordered l ∧ Ordered r ∧ (∀ a ∈ toList l, a ≤ v) ∧ (∀ b ∈ toList r, v ≤ b) := by
  simp only [Ordered, List.Sorted, toList_mk, List.pairwise_append, List.pairwise_cons,
    List.mem_cons]
  constructor
  · rintro ⟨h1, ⟨h2, h3⟩, h4⟩
    exact ⟨h1, h3, fun a ha => h4 a ha v (Or.inl rfl), h2⟩
  · rintro ⟨h1, h2, h3, h4⟩
    refine ⟨h1, ⟨h4, h2⟩, ?_⟩
    rintro a ha b (rfl | hb)
    · exact h3 a ha
    · exact le_trans (h3 a ha) (h4 b hb)

theorem ordered_nil : Ordered nil := by
  simp [Ordered]

theorem sorted_insert_mid {pre post : List Int} {x : Int}
    (hs : (pre ++ post).Sorted (· ≤ ·)) (h1 : ∀ y ∈ pre, y ≤ x) (h2 : ∀ y ∈ post, x ≤ y) :
    (pre ++ x :: post).Sorted (· ≤ ·) := by
  simp only [List.Sorted, List.pairwise_append, List.pairwise_cons, List.mem_cons] at hs ⊢
  obtain ⟨h3, h4, h5⟩ := hs
  refine ⟨h3, ⟨h2, h4⟩, ?_⟩
  rintro a ha b (rfl | hb)
  · exact h1 a ha
  · exact h5 a ha b hb

theorem sorted_remove_mid {pre post : List Int} {x : Int}
    (hs : (pre ++ x :: post).Sorted (· ≤ ·)) : (pre ++ post).Sorted (· ≤ ·) := by
  simp only [List.Sorted, List.pairwise_append, List.pairwise_cons, List.mem_cons] at hs ⊢
  obtain ⟨h3, ⟨-, h4⟩, h5⟩ := hs
  exact ⟨h3, h4, fun a ha b hb => h5 a ha b (Or.inr hb)⟩

/-! ## Insertion -/

theorem insert_spec : ∀ {n : Node}, AggOK n → Ordered n → ∀ x : Int,
    ∃ n1, insert n x = some n1 ∧ AggOK n1 ∧
      ∃ pre post, toList n = pre ++ post ∧ toList n1 = pre ++ x :: post ∧
        (∀ y ∈ pre, y ≤ x) ∧ (∀ y ∈ post, x < y)
  | nil, _, _, x => by
    refine ⟨mk nil nil x 1 1 x, ?_, ?_, [], [], ?_⟩
    · simp [insert, balanceStep_new]
    · simp [AggOK]
    · simp
  | mk l r v c h s, hn, ho, x => by
    obtain ⟨hl, hr, -, -, -⟩ := (aggOK_mk_iff _ _ _ _ _ _).1 hn
    obtain ⟨hol, hor, hlv, hvr⟩ := (ordered_mk_iff _ _ _ _ _ _).1 ho
    by_cases hv : v > x
    · obtain ⟨l1, e1, hl1, pre, post, e2, e3, h4, h5⟩ := insert_spec hl hol x
      obtain ⟨n1, e4, hn1, e5⟩ := balanceStep_spec hl1 hr v c h s
      refine ⟨n1, ?_, hn1, pre, post ++ v :: toList r, ?_, ?_, h4, ?_⟩
      · simp [insert, hv, e1, e4]
      · simp [e2]
      · simp [e5, e3]
      · intro y hy
        simp only [List.mem_append, List.mem_cons] at hy
        rcases hy with hy | rfl | hy
        · exact h5 y hy
        · exact hv
        · exact lt_of_lt_of_le hv (hvr y hy)
    · obtain ⟨r1, e1, hr1, pre, post, e2, e3, h4, h5⟩ := insert_spec hr hor x
      obtain ⟨n1, e4, hn1, e5⟩ := balanceStep_spec hl hr1 v c h s
      refine ⟨n1, ?_, hn1, toList l ++ v :: pre, post, ?_, ?_, ?_, h5⟩
      · simp [insert, hv, e1, e4]
      · simp [e2]
      · simp [e5, e3]
      · intro y hy
        simp only [List.mem_append, List.mem_cons] at hy
        have hvx : v ≤ x := not_lt.1 hv
        rcases hy with hy | rfl | hy
        · exact le_trans (hlv y hy) hvx
        · exact hvx
        · exact h4 y hy

theorem insert_ordered {n n1 : Node} (hn : AggOK n) (ho : Ordered n) {x : Int}
    (e : insert n x = some n1) : Ordered n1 := by
  obtain ⟨n2, e1, -, pre, post, e2, e3, h4, h5⟩ := insert_spec hn ho x
  rw [e] at e1
  cases e1
  unfold Ordered
  rw [e3]
  apply sorted_insert_mid
  · rw [← e2]; exact ho
  · exact h4
  · exact fun y hy => le_of_lt (h5 y hy)

/-! ## Removal -/

theorem detachSuccessor_spec : ∀ {l : Node}, AggOK l → l ≠ nil →
    ∀ {r : Node}, AggOK r → ∀ v c h s : Int,
    ∃ suc n1, detachSuccessor (mk l r v c h s) = some (suc, n1) ∧ AggOK n1 ∧
      ∃ sr sv sc sh ss, suc = mk nil sr sv sc sh ss ∧
        toList (mk l r v c h s) = sv :: toList n1
  | nil, _, hne, _, _, _, _, _, _ => absurd rfl hne
  | mk nil lr lv lc lh ls, hl, _, r, hr, v, c, h, s => by
    obtain ⟨-, hlr, -, -, -⟩ := (aggOK_mk_iff _ _ _ _ _ _).1 hl
    obtain ⟨n1, e1, hn1, e2⟩ := balanceStep_spec hlr hr v c h s
    refine ⟨mk nil lr lv lc lh ls, n1, ?_, hn1, lr, lv, lc, lh, ls, rfl, ?_⟩
    · simp [detachSuccessor, e1]
    · simp [e2]
  | mk (mk a b x y z w) lr lv lc lh ls, hl, _, r, hr, v, c, h, s => by
    obtain ⟨hll, hlr, -, -, -⟩ := (aggOK_mk_iff _ _ _ _ _ _).1 hl
    obtain ⟨suc, l1, e1, hl1, sr, sv, sc, sh, ss, e2, e3⟩ :=
      detachSuccessor_spec hll (by simp) hlr lv lc lh ls
    obtain ⟨n1, e4, hn1, e5⟩ := balanceStep_spec hl1 hr v c h s
    refine ⟨suc, n1, ?_, hn1, sr, sv, sc, sh, ss, e2, ?_⟩
    · simp [detachSuccessor, e1, e4]
    · rw [toList_mk, e3, e5]
      simp

theorem eraseHere_spec {l r : Node} (hl : AggOK l) (hr : AggOK r) (v c h s : Int) :
    ∃ n1, eraseHere (mk l r v c h s) = some n1 ∧ AggOK n1 ∧
      toList n1 = toList l ++ toList r := by
  cases r with
  | nil =>
    cases l with
    | nil => exact ⟨nil, rfl, hl, by simp⟩
    | mk a b x y z w => exact ⟨_, rfl, hl, by simp⟩
  | mk rl rr rv rc rh rs =>
    obtain ⟨hrl, hrr, -, -, -⟩ := (aggOK_mk_iff _ _ _ _ _ _).1 hr
    cases rl with
    | nil =>
      obtain ⟨n1, e1, hn1, e2⟩ := balanceStep_spec hl hrr rv rc rh rs
      refine ⟨n1, ?_, hn1, ?_⟩
      · cases l <;> simp [eraseHere, e1]
      · simp [e2]
    | mk a b x y z w =>
      obtain ⟨suc, r1, e1, hr1, sr, sv, sc, sh, ss, e2, e3⟩ :=
        detachSuccessor_spec hrl (by simp) hrr rv rc rh rs
      obtain ⟨n1, e4, hn1, e5⟩ := balanceStep_spec hl hr1 sv sc sh ss
      subst e2
      refine ⟨n1, ?_, hn1, ?_⟩
      · cases l <;> simp [eraseHere, e1, e4]
      · rw [e5, e3]

theorem erase_spec : ∀ {n : Node}, AggOK n → Ordered n → ∀ x : Int,
    ∃ n1 found, erase n x = some (n1, found) ∧ AggOK n1 ∧
      (found = false → n1 = n ∧ x ∉ toList n) ∧
      (found = true → ∃ pre post, toList n = pre ++ x :: post ∧ toList n1 = pre ++ post)
  | nil, _, _, x => ⟨nil, false, rfl, trivial, by simp, by simp⟩
  | mk l r v c h s, hn, ho, x => by
    obtain ⟨hl, hr, -, -, -⟩ := (aggOK_mk_iff _ _ _ _ _ _).1 hn
    obtain ⟨hol, hor, hlv, hvr⟩ := (ordered_mk_iff _ _ _ _ _ _).1 ho
    by_cases hne : v ≠ x
    · by_cases hv : v > x
      · obtain ⟨l1, found, e1, hl1, hf, ht⟩ := erase_spec hl hol x
        cases found with
        | false =>
          obtain ⟨rfl, hx⟩ := hf rfl
          refine ⟨mk l1 r v c h s, false, ?_, hn, ?_, by simp⟩
          · simp [erase, hne, hv, e1]
          · intro _
            refine ⟨rfl, ?_⟩
            simp only [toList_mk, List.mem_append, List.mem_cons, not_or]
            exact ⟨hx, fun e => hne e.symm, fun hxr => absurd (hvr x hxr) (not_le.2 hv)⟩
        | true =>
          obtain ⟨pre, post, e2, e3⟩ := ht rfl
          obtain ⟨n1, e4, hn1, e5⟩ := balanceStep_spec hl1 hr v c h s
          refine ⟨n1, true, ?_, hn1, by simp, fun _ => ⟨pre, post ++ v :: toList r, ?_, ?_⟩⟩
          · simp [erase, hne, hv, e1, e4]
          · simp [e2]
          · simp [e5, e3]
      · obtain ⟨r1, found, e1, hr1, hf, ht⟩ := erase_spec hr hor x
        have hvx : v < x := lt_of_le_of_ne (not_lt.1 hv) hne
        cases found with
        | false =>
          obtain ⟨rfl, hx⟩ := hf rfl
          refine ⟨mk l r1 v c h s, false, ?_, hn, ?_, by simp⟩
          · simp [erase, hne, hv, e1]
          · intro _
            refine ⟨rfl, ?_⟩
            simp only [toList_mk, List.mem_append, List.mem_cons, not_or]
            exact ⟨fun hxl => absurd (hlv x hxl) (not_le.2 hvx), fun e => hne e.symm, hx⟩
        | true =>
          obtain ⟨pre, post, e2, e3⟩ := ht rfl
          obtain ⟨n1, e4, hn1, e5⟩ := balanceStep_spec hl hr1 v c h s
          refine ⟨n1, true, ?_, hn1, by simp, fun _ => ⟨toList l ++ v :: pre, post, ?_, ?_⟩⟩
          · simp [erase, hne, hv, e1, e4]
          · simp [e2]
          · simp [e5, e3]
    · have hvx : v = x := not_not.1 hne
      obtain ⟨n1, e1, hn1, e2⟩ := eraseHere_spec hl hr v c h s
      refine ⟨n1, true, ?_, hn1, by simp, fun _ => ⟨toList l, toList r, ?_, e2⟩⟩
      · simp [erase, hvx, e1]
        rw [← hvx, e1]
        simp
      · simp [hvx]

/-! ## Range sum -/

theorem filter_sum_eq_zero {p : Int → Bool} {xs : List Int} (h : ∀ x ∈ xs, ¬ p x = true) :
    (xs.filter p).sum = 0 := by
  rw [List.filter_eq_nil_iff.2 h]
  rfl

theorem filter_sum_eq_sum {p : Int → Bool} {xs : List Int} (h : ∀ x ∈ xs, p x = true) :
    (xs.filter p).sum = xs.sum := by
  rw [List.filter_eq_self.2 h]

theorem filter_sum_mid (p : Int → Bool) (xs ys : List Int) (v : Int) :
    ((xs ++ v :: ys).filter p).sum =
      (xs.filter p).sum + (if p v = true then v else 0) + (ys.filter p).sum := by
  rw [List.filter_append, List.filter_cons, List.sum_append]
  by_cases hv : p v = true
  · rw [if_pos hv, if_pos hv, List.sum_cons]
    ring
  · rw [if_neg hv, if_neg hv]
    ring

theorem sumLeftAdd_eq (a b : Node) (v c h s l res : Int) :
    sumLeftAdd (mk a b v c h s) l res = some (if v ≥ l then res + v + sumOr0 b else res) := by
  cases b <;> by_cases hv : v ≥ l <;> simp [sumLeftAdd, hv]

theorem sumLeftLoop_eq (a b : Node) (v c h s l res : Int) :
    sumLeftLoop (mk a b v c h s) l res =
      if v ≥ l then
        (if a = nil then some res else (sumLeftAdd a l res).bind (sumLeftLoop a l))
      else
        (if b = nil then some res else (sumLeftAdd b l res).bind (sumLeftLoop b l)) := by
  cases a <;> cases b <;> by_cases hv : v ≥ l <;> simp [sumLeftLoop, hv]

theorem sumLeft_spec : ∀ {m : Node}, AggOK m → Ordered m → m ≠ nil → ∀ l res : Int,
    (sumLeftAdd m l res).bind (sumLeftLoop m l) =
      some (res + ((toList m).filter (fun x => decide (l ≤ x))).sum)
  | nil, _, _, hne, _, _ => absurd rfl hne
  | mk a b v c h s, hn, ho, _, l, res => by
    obtain ⟨ha, hb, -, -, -⟩ := (aggOK_mk_iff _ _ _ _ _ _).1 hn
    obtain ⟨hoa, hob, hav, hvb⟩ := (ordered_mk_iff _ _ _ _ _ _).1 ho
    rw [sumLeftAdd_eq, Option.some_bind, sumLeftLoop_eq, toList_mk, filter_sum_mid]
    by_cases hv : v ≥ l
    · have hb1 : ((toList b).filter (fun x => decide (l ≤ x))).sum = sumOr0 b := by
        rw [sumOr0_eq_sum hb]
        exact filter_sum_eq_sum (fun x hx => by simpa using le_trans hv (hvb x hx))
      have hv1 : decide (l ≤ v) = true := by simpa using hv
      rw [if_pos hv, if_pos hv, if_pos hv1, hb1]
      by_cases hnil : a = nil
      · subst hnil
        rw [if_pos rfl]
        refine congrArg some ?_
        simp only [toList_nil, List.filter_nil, List.sum_nil]
        ring
      · rw [if_neg hnil, sumLeft_spec ha hoa hnil]
        refine congrArg some ?_
        ring
    · have ha1 : ((toList a).filter (fun x => decide (l ≤ x))).sum = 0 :=
        filter_sum_eq_zero (fun x hx => by
          have := hav x hx
          simp only [decide_eq_true_eq]
          omega)
      have hv1 : ¬ decide (l ≤ v) = true := by simpa using hv
      rw [if_neg hv, if_neg hv, if_neg hv1, ha1]
      by_cases hnil : b = nil
      · subst hnil
        rw [if_pos rfl]
        refine congrArg some ?_
        simp only [toList_nil, List.filter_nil, List.sum_nil]
        ring
      · rw [if_neg hnil, sumLeft_spec hb hob hnil]
        refine congrArg some ?_
        ring

theorem sumRightAdd_eq (a b : Node) (v c h s r res : Int) :
    sumRightAdd (mk a b v c h s) r res = some (if v ≤ r then res + v + sumOr0 a else res) := by
  cases a <;> by_cases hv : v ≤ r <;> simp [sumRightAdd, hv]

theorem sumRightLoop_eq (a b : Node) (v c h s r res : Int) :
    sumRightLoop (mk a b v c h s) r res =
      if v ≤ r then
        (if b = nil then some res else (sumRightAdd b r res).bind (sumRightLoop b r))
      else
        (if a = nil then some res else (sumRightAdd a r res).bind (sumRightLoop a r)) := by
  cases a <;> cases b <;> by_cases hv : v ≤ r <;> simp [sumRightLoop, hv]

theorem sumRight_spec : ∀ {m : Node}, AggOK m → Ordered m → m ≠ nil → ∀ r res : Int,
    (sumRightAdd m r res).bind (sumRightLoop m r) =
      some (res + ((toList m).filter (fun x => decide (x ≤ r))).sum)
  | nil, _, _, hne, _, _ => absurd rfl hne
  | mk a b v c h s, hn, ho, _, r, res => by
    obtain ⟨ha, hb, -, -, -⟩ := (aggOK_mk_iff _ _ _ _ _ _).1 hn
    obtain ⟨hoa, hob, hav, hvb⟩ := (ordered_mk_iff _ _ _ _ _ _).1 ho
    rw [sumRightAdd_eq, Option.some_bind, sumRightLoop_eq, toList_mk, filter_sum_mid]
    by_cases hv : v ≤ r
    · have ha1 : ((toList a).filter (fun x => decide (x ≤ r))).sum = sumOr0 a := by
        rw [sumOr0_eq_sum ha]
        exact filter_sum_eq_sum (fun x hx => by simpa using le_trans (hav x hx) hv)
      have hv1 : decide (v ≤ r) = true := by simpa using hv
      rw [if_pos hv, if_pos hv, if_pos hv1, ha1]
      by_cases hnil : b = nil
      · subst hnil
        rw [if_pos rfl]
        refine congrArg some ?_
        simp only [toList_nil, List.filter_nil, List.sum_nil]
        ring
      · rw [if_neg hnil, sumRight_spec hb hob hnil]
        refine congrArg some ?_
        ring
    · have hb1 : ((toList b).filter (fun x => decide (x ≤ r))).sum = 0 :=
        filter_sum_eq_zero (fun x hx => by
          have := hvb x hx
          simp only [decide_eq_true_eq]
          omega)
      have hv1 : ¬ decide (v ≤ r) = true := by simpa using hv
      rw [if_neg hv, if_neg hv, if_neg hv1, hb1]
      by_cases hnil : a = nil
      · subst hnil
        rw [if_pos rfl]
        refine congrArg some ?_
        simp only [toList_nil, List.filter_nil, List.sum_nil]
        ring
      · rw [if_neg hnil, sumRight_spec ha hoa hnil]
        refine congrArg some ?_
        ring

theorem sumLeftLoop_split {a b : Node} {v c h s : Int} (hn : AggOK (mk a b v c h s))
    (ho : Ordered (mk a b v c h s)) (l res : Int) (hv : l ≤ v) :
    sumLeftLoop (mk a b v c h s) l res =
      some (res + ((toList a).filter (fun x => decide (l ≤ x))).sum) := by
  obtain ⟨ha, -, -, -, -⟩ := (aggOK_mk_iff _ _ _ _ _ _).1 hn
  obtain ⟨hoa, -, -, -⟩ := (ordered_mk_iff _ _ _ _ _ _).1 ho
  rw [sumLeftLoop_eq, if_pos hv]
  by_cases hnil : a = nil
  · subst hnil
    rw [if_pos rfl]
    simp
  · rw [if_neg hnil, sumLeft_spec ha hoa hnil]

theorem sumRightLoop_split {a b : Node} {v c h s : Int} (hn : AggOK (mk a b v c h s))
    (ho : Ordered (mk a b v c h s)) (r res : Int) (hv : v ≤ r) :
    sumRightLoop (mk a b v c h s) r res =
      some (res + ((toList b).filter (fun x => decide (x ≤ r))).sum) := by
  obtain ⟨-, hb, -, -, -⟩ := (aggOK_mk_iff _ _ _ _ _ _).1 hn
  obtain ⟨-, hob, -, -⟩ := (ordered_mk_iff _ _ _ _ _ _).1 ho
  rw [sumRightLoop_eq, if_pos hv]
  by_cases hnil : b = nil
  · subst hnil
    rw [if_pos rfl]
    simp
  · rw [if_neg hnil, sumRight_spec hb hob hnil]

theorem sumSplit_eq (a b : Node) (v c h s l r res : Int) :
    sumSplit (mk a b v c h s) l r res =
      if v < l ∨ v > r then
        (if v < l then (if b = nil then some (nil, some res) else sumSplit b l r res)
         else (if a = nil then some (nil, some res) else sumSplit a l r res))
      else some (mk a b v c h s, none) := by
  cases a <;> cases b <;> by_cases h1 : v < l <;> by_cases h2 : v > r <;>
    simp [sumSplit, h1, h2]

theorem rangeSum_mk (l r : Int) {a b : Node} {v : Int} (c h s : Int)
    (ho : Ordered (mk a b v c h s)) (h1 : l ≤ v) (h2 : v ≤ r) :
    ((toList (mk a b v c h s)).filter (fun x => decide (l ≤ x ∧ x ≤ r))).sum =
      v + ((toList a).filter (fun x => decide (l ≤ x))).sum +
        ((toList b).filter (fun x => decide (x ≤ r))).sum := by
  obtain ⟨-, -, hav, hvb⟩ := (ordered_mk_iff _ _ _ _ _ _).1 ho
  rw [toList_mk, filter_sum_mid]
  have e1 : (toList a).filter (fun x => decide (l ≤ x ∧ x ≤ r)) =
      (toList a).filter (fun x => decide (l ≤ x)) :=
    List.filter_congr (fun x hx => by
      have := hav x hx
      have h3 : x ≤ r := le_trans this h2
      simp [h3])
  have e2 : (toList b).filter (fun x => decide (l ≤ x ∧ x ≤ r)) =
      (toList b).filter (fun x => decide (x ≤ r)) :=
    List.filter_congr (fun x hx => by
      have := hvb x hx
      have h3 : l ≤ x := le_trans h1 this
      simp [h3])
  have e3 : decide (l ≤ v ∧ v ≤ r) = true := by simp [h1, h2]
  rw [e1, e2, if_pos e3]
  ring

theorem sumSplit_spec : ∀ {n : Node}, AggOK n → Ordered n → n ≠ nil → ∀ l r res : Int,
    (sumSplit n l r res = some (nil, some res) ∧
        ((toList n).filter (fun x => decide (l ≤ x ∧ x ≤ r))).sum = 0) ∨
      ∃ a b v c h s, sumSplit n l r res = some (mk a b v c h s, none) ∧
        AggOK (mk a b v c h s) ∧ Ordered (mk a b v c h s) ∧ l ≤ v ∧ v ≤ r ∧
        ((toList n).filter (fun x => decide (l ≤ x ∧ x ≤ r))).sum =
          ((toList (mk a b v c h s)).filter (fun x => decide (l ≤ x ∧ x ≤ r))).sum
  | nil, _, _, hne, _, _, _ => absurd rfl hne
  | mk a b v c h s, hn, ho, _, l, r, res => by
    obtain ⟨ha, hb, -, -, -⟩ := (aggOK_mk_iff _ _ _ _ _ _).1 hn
    obtain ⟨hoa, hob, hav, hvb⟩ := (ordered_mk_iff _ _ _ _ _ _).1 ho
    rw [sumSplit_eq]
    by_cases hout : v < l ∨ v > r
    · rw [if_pos hout]
      by_cases hvl : v < l
      · rw [if_pos hvl]
        have hlow : ((toList a ++ [v]).filter (fun x => decide (l ≤ x ∧ x ≤ r))).sum = 0 :=
          filter_sum_eq_zero (fun x hx => by
            simp only [List.mem_append, List.mem_singleton] at hx
            have : x ≤ v := by
              rcases hx with hx | rfl
              · exact hav x hx
              · exact le_refl _
            simp only [decide_eq_true_eq]
            omega)
        have key : ((toList (mk a b v c h s)).filter (fun x => decide (l ≤ x ∧ x ≤ r))).sum =
            ((toList b).filter (fun x => decide (l ≤ x ∧ x ≤ r))).sum := by
          have : toList (mk a b v c h s) = (toList a ++ [v]) ++ toList b := by simp
          rw [this, List.filter_append, List.sum_append, hlow, zero_add]
        by_cases hnil : b = nil
        · subst hnil
          rw [if_pos rfl]
          left
          refine ⟨rfl, ?_⟩
          rw [key]
          simp
        · rw [if_neg hnil, key]
          exact sumSplit_spec hb hob hnil l r res
      · rw [if_neg hvl]
        have hvr : v > r := hout.resolve_left hvl
        have hhigh : ((v :: toList b).filter (fun x => decide (l ≤ x ∧ x ≤ r))).sum = 0 :=
          filter_sum_eq_zero (fun x hx => by
            simp only [List.mem_cons] at hx
            have : v ≤ x := by
              rcases hx with rfl | hx
              · exact le_refl _
              · exact hvb x hx
            simp only [decide_eq_true_eq]
            omega)
        have key : ((toList (mk a b v c h s)).filter (fun x => decide (l ≤ x ∧ x ≤ r))).sum =
            ((toList a).filter (fun x => decide (l ≤ x ∧ x ≤ r))).sum := by
          rw [toList_mk, List.filter_append, List.sum_append, hhigh, add_zero]
        by_cases hnil : a = nil
        · subst hnil
          rw [if_pos rfl]
          left
          refine ⟨rfl, ?_⟩
          rw [key]
          simp
        · rw [if_neg hnil, key]
          exact sumSplit_spec ha hoa hnil l r res
    · rw [if_neg hout]
      right
      have h1 : l ≤ v := by omega
      have h2 : v ≤ r := by omega
      exact ⟨a, b, v, c, h, s, rfl, hn, ho, h1, h2, rfl⟩

end Node

namespace AVLTree

theorem sum_spec {t : AVLTree} (hinv : t.Inv) (l r : Int) (hlr : l ≤ r) :
    t.sum l r = some ((t.toList.filter (fun x => decide (l ≤ x ∧ x ≤ r))).sum) := by
  obtain ⟨hn, ho, -⟩ := hinv
  unfold sum toList
  rw [if_pos hlr]
  cases hroot : t.root with
  | nil => simp
  | mk a0 b0 v0 c0 h0 s0 =>
    rw [hroot] at hn ho
    rcases Node.sumSplit_spec hn ho (by simp) l r 0 with ⟨e1, e2⟩ | ⟨a, b, v, c, h, s, e1, hn1, ho1, h1, h2, e2⟩
    · simp only [e1, Option.bind_eq_bind, Option.some_bind, e2]
    · simp only [e1, Option.bind_eq_bind, Option.some_bind, e2]
      rw [Node.sumLeftLoop_split hn1 ho1 l _ h1, Option.some_bind,
        Node.sumRightLoop_split hn1 ho1 r _ h2, Node.rangeSum_mk l r c h s ho1 h1 h2]
      simp

end AVLTree

namespace Node

/-! ## Order statistics -/

theorem getElem?_mid_left (xs ys : List Int) (v : Int) {m : Nat} (h : m < xs.length) :
    (xs ++ v :: ys)[m]? = xs[m]? :=
  List.getElem?_append_left h

theorem getElem?_mid (xs ys : List Int) (v : Int) :
    (xs ++ v :: ys)[xs.length]? = some v := by
  rw [List.getElem?_append_right (le_refl _)]
  simp

theorem getElem?_mid_right (xs ys : List Int) (v : Int) (k : Nat) :
    (xs ++ v :: ys)[xs.length + 1 + k]? = ys[k]? := by
  rw [List.getElem?_append_right (by omega)]
  have : xs.length + 1 + k - xs.length = k + 1 := by omega
  rw [this, List.getElem?_cons_succ]

theorem index_spec : ∀ {n : Node}, AggOK n → ∀ m : Nat, m < (toList n).length →
    index n (m : Int) = (toList n)[m]?
  | nil, _, m, hm => by simp at hm
  | mk l r v c h s, hn, m, hm => by
    obtain ⟨hl, hr, -, -, -⟩ := (aggOK_mk_iff _ _ _ _ _ _).1 hn
    have hcl := countOr0_eq_length hl
    simp only [toList_mk, List.length_append, List.length_cons] at hm
    rw [toList_mk]
    unfold index
    rw [hcl]
    by_cases h1 : ((toList l).length : Int) ≠ (m : Int)
    · rw [if_pos h1]
      by_cases h2 : ((toList l).length : Int) < (m : Int)
      · rw [if_pos h2]
        have h3 : (toList l).length < m := by exact_mod_cast h2
        obtain ⟨k, rfl⟩ : ∃ k, m = (toList l).length + 1 + k := ⟨m - ((toList l).length + 1), by omega⟩
        have e : (((toList l).length + 1 + k : Nat) : Int) - (((toList l).length : Int) + 1) = (k : Int) := by
          push_cast
          ring
        rw [e, getElem?_mid_right, index_spec hr k (by omega)]
      · rw [if_neg h2]
        have h3 : m < (toList l).length := by
          have h4 : (m : Int) ≠ ((toList l).length : Int) := fun e => h1 e.symm
          have h5 : (m : Int) ≤ ((toList l).length : Int) := not_lt.1 h2
          have h6 : (m : Int) < ((toList l).length : Int) := lt_of_le_of_ne h5 h4
          exact_mod_cast h6
        rw [getElem?_mid_left _ _ _ h3, index_spec hl m h3]
    · rw [if_neg h1]
      have h3 : (toList l).length = m := by
        have := not_not.1 h1
        exact_mod_cast this
      rw [← h3, getElem?_mid]

theorem find_spec : ∀ {n : Node}, AggOK n → Ordered n → ∀ x idx : Int,
    (x ∉ toList n → find n x idx = -1) ∧
      (x ∈ toList n → ∃ k : Nat, find n x idx = idx + (k : Int) ∧ (toList n)[k]? = some x)
  | nil, _, _, x, idx => by simp [find]
  | mk l r v c h s, hn, ho, x, idx => by
    obtain ⟨hl, hr, -, -, -⟩ := (aggOK_mk_iff _ _ _ _ _ _).1 hn
    obtain ⟨hol, hor, hlv, hvr⟩ := (ordered_mk_iff _ _ _ _ _ _).1 ho
    have hcl := countOr0_eq_length hl
    unfold find
    rw [hcl, toList_mk]
    by_cases hne : v ≠ x
    · rw [if_pos hne]
      by_cases hv : v > x
      · rw [if_pos hv]
        obtain ⟨i1, i2⟩ := find_spec hl hol x idx
        have hmem : x ∈ toList l ++ v :: toList r ↔ x ∈ toList l := by
          simp only [List.mem_append, List.mem_cons]
          constructor
          · rintro (hx | rfl | hx)
            · exact hx
            · exact absurd rfl hne
            · exact absurd (hvr x hx) (not_le.2 hv)
          · exact Or.inl
        rw [hmem]
        refine ⟨i1, fun hx => ?_⟩
        obtain ⟨k, e1, e2⟩ := i2 hx
        refine ⟨k, e1, ?_⟩
        have hk : k < (toList l).length := (List.getElem?_eq_some.1 e2).1
        rw [getElem?_mid_left _ _ _ hk, e2]
      · rw [if_neg hv]
        have hvx : v < x := lt_of_le_of_ne (not_lt.1 hv) hne
        obtain ⟨i1, i2⟩ := find_spec hr hor x (idx + (((toList l).length : Int) + 1))
        have hmem : x ∈ toList l ++ v :: toList r ↔ x ∈ toList r := by
          simp only [List.mem_append, List.mem_cons]
          constructor
          · rintro (hx | rfl | hx)
            · exact absurd (hlv x hx) (not_le.2 hvx)
            · exact absurd rfl hne
            · exact hx
          · exact fun hx => Or.inr (Or.inr hx)
        rw [hmem]
        refine ⟨i1, fun hx => ?_⟩
        obtain ⟨k, e1, e2⟩ := i2 hx
        refine ⟨(toList l).length + 1 + k, ?_, ?_⟩
        · rw [e1]
          push_cast
          ring
        · rw [getElem?_mid_right, e2]
    · rw [if_neg hne]
      have hvx : v = x := not_not.1 hne
      subst hvx
      refine ⟨fun hx => absurd (by simp) hx, fun _ => ⟨(toList l).length, rfl, ?_⟩⟩
      exact getElem?_mid _ _ _

end Node

/-! ## The invariant along sequences of calls -/

namespace AVLTree

theorem inv_new : new.Inv := ⟨trivial, Node.ordered_nil, rfl⟩

theorem tree_insert_spec {t : AVLTree} (hinv : t.Inv) (v : Int) :
    ∃ t1, t.insert v = some t1 ∧ t1.Inv ∧ t1._size = t._size + 1 ∧
      ∃ pre post, t.toList = pre ++ post ∧ t1.toList = pre ++ v :: post := by
  obtain ⟨hn, ho, hs⟩ := hinv
  obtain ⟨n1, e1, hn1, pre, post, e2, e3, h4, h5⟩ := Node.insert_spec hn ho v
  refine ⟨⟨t._size + 1, n1⟩, ?_, ⟨hn1, Node.insert_ordered hn ho e1, ?_⟩, rfl, pre, post, e2, e3⟩
  · simp [insert, e1]
  · show t._size + 1 = Node.countOr0 n1
    rw [hs, Node.countOr0_eq_length hn, Node.countOr0_eq_length hn1, e2, e3]
    simp
    ring

theorem tree_erase_spec {t : AVLTree} (hinv : t.Inv) (v : Int) :
    ∃ t1, t.erase v = some t1 ∧ t1.Inv ∧ (v ∉ t.toList → t1 = t) ∧
      (v ∈ t.toList → t1._size = t._size - 1 ∧
        ∃ pre post, t.toList = pre ++ v :: post ∧ t1.toList = pre ++ post) := by
  obtain ⟨hn, ho, hs⟩ := hinv
  obtain ⟨n1, found, e1, hn1, hf, ht⟩ := Node.erase_spec hn ho v
  cases found with
  | false =>
    obtain ⟨-, hx⟩ := hf rfl
    refine ⟨t, ?_, ⟨hn, ho, hs⟩, fun _ => rfl, fun hmem => absurd hmem hx⟩
    simp [erase, e1]
  | true =>
    obtain ⟨pre, post, e2, e3⟩ := ht rfl
    have hmem : v ∈ t.toList := by
      show v ∈ Node.toList t.root
      rw [e2]
      simp
    refine ⟨⟨t._size - 1, n1⟩, ?_, ⟨hn1, ?_, ?_⟩, fun hx => absurd hmem hx,
      fun _ => ⟨rfl, pre, post, e2, e3⟩⟩
    · simp [erase, e1]
    · show (Node.toList n1).Sorted (· ≤ ·)
      rw [e3]
      apply Node.sorted_remove_mid (x := v)
      rw [← e2]
      exact ho
    · show t._size - 1 = Node.countOr0 n1
      rw [hs, Node.countOr0_eq_length hn, Node.countOr0_eq_length hn1, e2, e3]
      simp
      ring

theorem size_eq_length {t : AVLTree} (hinv : t.Inv) : t.size = (t.toList.length : Int) := by
  obtain ⟨hn, -, hs⟩ := hinv
  show t._size = _
  rw [hs, Node.countOr0_eq_length hn]
  rfl

end AVLTree

theorem Op.apply_spec {t : AVLTree} (hinv : t.Inv) (op : Op) :
    ∃ t1, op.apply t = some t1 ∧ t1.Inv := by
  cases op with
  | insert v =>
    obtain ⟨t1, e, h, -⟩ := AVLTree.tree_insert_spec hinv v
    exact ⟨t1, e, h⟩
  | erase v =>
    obtain ⟨t1, e, h, -⟩ := AVLTree.tree_erase_spec hinv v
    exact ⟨t1, e, h⟩

theorem run_spec : ∀ (ops : List Op) {t : AVLTree}, t.Inv → ∃ t1, run ops t = some t1 ∧ t1.Inv
  | [], t, hinv => ⟨t, rfl, hinv⟩
  | op :: ops, t, hinv => by
    obtain ⟨t1, e1, h1⟩ := Op.apply_spec hinv op
    obtain ⟨t2, e2, h2⟩ := run_spec ops h1
    exact ⟨t2, by simp [run, e1, e2], h2⟩

theorem Reachable.inv {t : AVLTree} (h : Reachable t) : t.Inv := by
  obtain ⟨ops, e⟩ := h
  obtain ⟨t1, e1, h1⟩ := run_spec ops AVLTree.inv_new
  rw [e] at e1
  cases e1
  exact h1

/-! ## Concrete runs -/

theorem scenarioTree_reachable : Reachable scenarioTree := ⟨scenarioOps, rfl⟩

theorem scenarioErased_eq : scenarioTree.erase 5 = some scenarioErased := rfl

theorem unbalancedTree_reachable : Reachable unbalancedTree := ⟨unbalancingOps, rfl⟩

/-! ## The claims -/

/-- C1: for every tree obtained from the empty tree by a finite sequence of `insert` and
`erase` calls and all `l ≤ r`, `sum(l, r)` returns the sum of the in-order sequence
filtered to `[l, r]` (duplicates counted); in particular it returns the additive identity
when no stored value lies in `[l, r]`. -/
theorem sum_eq_sum_of_inorder_filter (t : AVLTree) (ht : Reachable t) (l r : Int)
    (hlr : l ≤ r) :
    t.sum l r = some ((t.toList.filter (fun x => decide (l ≤ x ∧ x ≤ r))).sum) ∧
      ((∀ x ∈ t.toList, ¬ (l ≤ x ∧ x ≤ r)) → t.sum l r = some 0) := by
  have h := AVLTree.sum_spec ht.inv l r hlr
  refine ⟨h, fun hnone => ?_⟩
  rw [h, Node.filter_sum_eq_zero (fun x hx => by simpa using hnone x hx)]

theorem sum_eq_sum_of_inorder_filter_witness :
    Reachable scenarioTree ∧ (3 : Int) ≤ 8 ∧ scenarioTree.sum 3 8 = some 27 :=
  ⟨scenarioTree_reachable, by decide,
    (sum_eq_sum_of_inorder_filter scenarioTree scenarioTree_reachable 3 8 (by decide)).1⟩

/-- C2, evaluated on the code: the calls `insert` of 6, 3, 8, 1, 4, 9, 2, 5 followed by
`erase(9)` run without error and leave a tree with exact aggregates in which the node
holding 3 has balance factor 2: its left subtree has height 2 and it has no right
subtree.  So a reachable tree is not balanced at every node. -/
theorem erase_leaves_unbalanced_node :
    run unbalancingOps AVLTree.new = some unbalancedTree ∧
      Node.AggOK unbalancedTree.root ∧
      (∃ r v c h s, unbalancedTree.root = Node.mk
          (Node.mk (Node.mk Node.nil (Node.leaf 2) 1 2 2 3) Node.nil 3 3 3 6) r v c h s) ∧
      Node.balanceFactor (Node.mk (Node.mk Node.nil (Node.leaf 2) 1 2 2 3) Node.nil 3 3 3 6)
        = some 2 ∧
      Node.realHeight (Node.mk Node.nil (Node.leaf 2) 1 2 2 3) = 2 ∧
      Node.realHeight Node.nil = 0 ∧
      ¬ Node.Balanced unbalancedTree.root := by
  refine ⟨rfl, unbalancedTree_reachable.inv.1, ⟨_, _, _, _, _, rfl⟩, rfl, rfl, rfl, ?_⟩
  intro hb
  have h3 := hb.1.2.2.2
  revert h3
  decide

/-- C3: after any finite sequence of `insert` and `erase` calls from the empty tree, the
stored aggregates of every node are exact (`count`, `height` and `sum` are what
`updateValues` computes from the children, a missing child counting as 0) and the
in-order sequence is non-decreasing. -/
theorem reachable_aggregates_exact_and_sorted (t : AVLTree) (ht : Reachable t) :
    Node.AggOK t.root ∧ t.toList.Sorted (· ≤ ·) :=
  ⟨ht.inv.1, ht.inv.2.1⟩

theorem reachable_aggregates_exact_and_sorted_witness :
    Reachable unbalancedTree ∧ Node.AggOK unbalancedTree.root ∧
      unbalancedTree.toList.Sorted (· ≤ ·) :=
  ⟨unbalancedTree_reachable,
    reachable_aggregates_exact_and_sorted unbalancedTree unbalancedTree_reachable⟩

theorem run_size : ∀ (ops : List Op) {t : AVLTree}, t.Inv →
    ∃ t1, run ops t = some t1 ∧ t1.Inv ∧
      t1.size = t.size + (insertCalls ops : Int) - (presentErases ops t : Int)
  | [], t, hinv => ⟨t, rfl, hinv, by simp [insertCalls, presentErases]⟩
  | Op.insert v :: ops, t, hinv => by
    obtain ⟨t1, e1, h1, hs, -⟩ := AVLTree.tree_insert_spec hinv v
    obtain ⟨t2, e2, h2, hs2⟩ := run_size ops h1
    refine ⟨t2, by simp [run, Op.apply, e1, e2], h2, ?_⟩
    have hs1 : t1.size = t.size + 1 := hs
    rw [hs2, hs1]
    simp only [insertCalls, presentErases, e1]
    push_cast
    ring
  | Op.erase v :: ops, t, hinv => by
    obtain ⟨t1, e1, h1, hno, hyes⟩ := AVLTree.tree_erase_spec hinv v
    obtain ⟨t2, e2, h2, hs2⟩ := run_size ops h1
    refine ⟨t2, by simp [run, Op.apply, e1, e2], h2, ?_⟩
    rw [hs2]
    simp only [insertCalls, presentErases, e1]
    by_cases hmem : v ∈ t.toList
    · have hs1 : t1.size = t.size - 1 := (hyes hmem).1
      rw [hs1, if_pos hmem]
      push_cast
      ring
    · rw [hno hmem, if_neg hmem]
      push_cast
      ring

/-- C4: every finite sequence of `insert` and `erase` calls runs from the empty tree
without error, and afterwards `size()` is the number of `insert` calls minus the number
of `erase` calls whose value was stored at the time of the call, `size()` is the root's
`count` aggregate (0 when the root is absent), and `empty()` holds exactly when the root
is absent. -/
theorem size_counts_inserts_minus_present_erases (ops : List Op) :
    ∃ t, run ops AVLTree.new = some t ∧
      t.size = (insertCalls ops : Int) - (presentErases ops AVLTree.new : Int) ∧
      t.size = Node.countOr0 t.root ∧
      (t.empty = true ↔ t.root = Node.nil) := by
  obtain ⟨t, e, hinv, hs⟩ := run_size ops AVLTree.inv_new
  refine ⟨t, e, ?_, hinv.2.2, ?_⟩
  · rw [hs]
    simp [AVLTree.size, AVLTree.new]
  · have h1 := AVLTree.size_eq_length hinv
    have h2 : t._size = (t.toList.length : Int) := h1
    simp only [AVLTree.empty, beq_iff_eq, h2]
    rw [← Node.toList_eq_nil_iff]
    constructor
    · intro h0
      have : t.toList.length = 0 := by exact_mod_cast h0
      exact List.length_eq_zero.1 this
    · intro h0
      have : t.toList = [] := h0
      rw [this]
      rfl

theorem count_insert_mid (pre post : List Int) (v x : Int) :
    (pre ++ v :: post).count x = (pre ++ post).count x + (if x = v then 1 else 0) := by
  rw [List.count_append, List.count_append, List.count_cons]
  by_cases h : x = v
  · subst h
    simp
    ring
  · have h1 : ¬ v = x := fun e => h e.symm
    simp [h, h1]

/-- C5: for every reachable tree and every value `v`, `insert(v)` succeeds, the new
in-order sequence is the old one with `v` put in at one position (so every value keeps its
multiplicity except `v`, whose multiplicity grows by one, also when `v` is already
stored), and `size()` grows by exactly 1. -/
theorem insert_adds_one_occurrence (t : AVLTree) (ht : Reachable t) (v : Int) :
    ∃ t1, t.insert v = some t1 ∧
      (∃ pre post, t.toList = pre ++ post ∧ t1.toList = pre ++ v :: post) ∧
      (∀ x, t1.toList.count x = t.toList.count x + (if x = v then 1 else 0)) ∧
      t1.size = t.size + 1 := by
  obtain ⟨t1, e1, -, hs, pre, post, e2, e3⟩ := AVLTree.tree_insert_spec ht.inv v
  refine ⟨t1, e1, ⟨pre, post, e2, e3⟩, fun x => ?_, hs⟩
  rw [e2, e3, count_insert_mid]

theorem insert_adds_one_occurrence_witness :
    Reachable scenarioTree ∧
      ∃ t1, scenarioTree.insert 4 = some t1 ∧
        (∃ pre post, scenarioTree.toList = pre ++ post ∧ t1.toList = pre ++ 4 :: post) ∧
        (∀ x, t1.toList.count x = scenarioTree.toList.count x + (if x = 4 then 1 else 0)) ∧
        t1.size = scenarioTree.size + 1 :=
  ⟨scenarioTree_reachable, insert_adds_one_occurrence scenarioTree scenarioTree_reachable 4⟩

/-- C6: for every reachable tree and every value `v` stored in it, `erase(v)` succeeds, the
new in-order sequence is the old one with one occurrence of `v` taken out (every other
value keeps its multiplicity, whatever the shape of the removed node), `size()` shrinks by
exactly 1, and when `v` occurred once `find(v)` afterwards returns -1. -/
theorem erase_removes_one_occurrence (t : AVLTree) (ht : Reachable t) (v : Int)
    (hv : v ∈ t.toList) :
    ∃ t1, t.erase v = some t1 ∧
      (∃ pre post, t.toList = pre ++ v :: post ∧ t1.toList = pre ++ post) ∧
      (∀ x, t.toList.count x = t1.toList.count x + (if x = v then 1 else 0)) ∧
      t1.size = t.size - 1 ∧
      (t.toList.count v = 1 → t1.find v = -1) := by
  obtain ⟨t1, e1, hinv1, -, hyes⟩ := AVLTree.tree_erase_spec ht.inv v
  obtain ⟨hs, pre, post, e2, e3⟩ := hyes hv
  have hc : ∀ x, t.toList.count x = t1.toList.count x + (if x = v then 1 else 0) := by
    intro x
    rw [e2, e3, count_insert_mid]
  refine ⟨t1, e1, ⟨pre, post, e2, e3⟩, hc, hs, fun h1 => ?_⟩
  have h0 : t1.toList.count v = 0 := by
    have := hc v
    rw [h1, if_pos rfl] at this
    omega
  exact (Node.find_spec hinv1.1 hinv1.2.1 v 0).1 (List.count_eq_zero.1 h0)

theorem erase_removes_one_occurrence_witness :
    Reachable scenarioTree ∧ (5 : Int) ∈ scenarioTree.toList ∧
      ∃ t1, scenarioTree.erase 5 = some t1 ∧
        (∃ pre post, scenarioTree.toList = pre ++ 5 :: post ∧ t1.toList = pre ++ post) ∧
        (∀ x, scenarioTree.toList.count x = t1.toList.count x + (if x = 5 then 1 else 0)) ∧
        t1.size = scenarioTree.size - 1 ∧
        (scenarioTree.toList.count 5 = 1 → t1.find 5 = -1) :=
  ⟨scenarioTree_reachable, by decide,
    erase_removes_one_occurrence scenarioTree scenarioTree_reachable 5 (by decide)⟩

/-- C7: for every reachable tree and every value `v` not stored in it, `erase(v)` raises no
error and returns the very same tree: shape, values, aggregates and `size()` are
unchanged. -/
theorem erase_absent_is_noop (t : AVLTree) (ht : Reachable t) (v : Int)
    (hv : v ∉ t.toList) :
    t.erase v = some t ∧ ∀ t1, t.erase v = some t1 → t1.size = t.size := by
  obtain ⟨t1, e1, -, hno, -⟩ := AVLTree.tree_erase_spec ht.inv v
  have e2 : t1 = t := hno hv
  rw [e2] at e1
  refine ⟨e1, fun t2 e3 => ?_⟩
  rw [e1] at e3
  cases e3
  rfl

theorem erase_absent_is_noop_witness :
    Reachable scenarioTree ∧ (6 : Int) ∉ scenarioTree.toList ∧
      scenarioTree.erase 6 = some scenarioTree ∧
      ∀ t1, scenarioTree.erase 6 = some t1 → t1.size = scenarioTree.size :=
  ⟨scenarioTree_reachable, by decide,
    erase_absent_is_noop scenarioTree scenarioTree_reachable 6 (by decide)⟩

theorem AVLTree.index_eq_getElem? {t : AVLTree} (hinv : t.Inv) (i : Int) (h0 : 0 ≤ i)
    (h1 : i < t.size) : i.toNat < t.toList.length ∧ t.index i = t.toList[i.toNat]? := by
  rw [AVLTree.size_eq_length hinv] at h1
  obtain ⟨m, rfl⟩ := Int.eq_ofNat_of_zero_le h0
  have hm : m < t.toList.length := by exact_mod_cast h1
  exact ⟨by simpa using hm, by simpa using Node.index_spec hinv.1 m hm⟩

/-- C8: for every reachable tree and every index `i` with `0 ≤ i < size()`,
`operator[](i)` returns the element at 0-based position `i` of the in-order sequence. -/
theorem index_returns_ith_inorder (t : AVLTree) (ht : Reachable t) (i : Int) (h0 : 0 ≤ i)
    (h1 : i < t.size) :
    ∃ x, t.index i = some x ∧ t.toList[i.toNat]? = some x := by
  obtain ⟨hlt, e⟩ := AVLTree.index_eq_getElem? ht.inv i h0 h1
  refine ⟨t.toList[i.toNat], ?_, ?_⟩
  · rw [e]
    exact List.getElem?_eq_getElem hlt
  · exact List.getElem?_eq_getElem hlt

theorem index_returns_ith_inorder_witness :
    Reachable scenarioTree ∧ (0 : Int) ≤ 6 ∧ (6 : Int) < scenarioTree.size ∧
      ∃ x, scenarioTree.index 6 = some x ∧ scenarioTree.toList[(6 : Int).toNat]? = some x :=
  ⟨scenarioTree_reachable, by decide, by decide,
    index_returns_ith_inorder scenarioTree scenarioTree_reachable 6 (by decide) (by decide)⟩

theorem AVLTree.tree_find_spec {t : AVLTree} (hinv : t.Inv) (v : Int) :
    (v ∉ t.toList → t.find v = -1) ∧
      (v ∈ t.toList → ∃ k : Nat, t.find v = (k : Int) ∧ t.toList[k]? = some v) := by
  obtain ⟨f1, f2⟩ := Node.find_spec hinv.1 hinv.2.1 v 0
  refine ⟨f1, fun hv => ?_⟩
  obtain ⟨k, e1, e2⟩ := f2 hv
  exact ⟨k, by simpa using e1, e2⟩

/-- C9: for every reachable tree whose stored values are pairwise distinct and every `i`
with `0 ≤ i < size()`, `operator[](i)` returns a value `x` and `find(x) == i`. -/
theorem find_index_eq_self (t : AVLTree) (ht : Reachable t) (hd : t.toList.Nodup) (i : Int)
    (h0 : 0 ≤ i) (h1 : i < t.size) :
    ∃ x, t.index i = some x ∧ t.find x = i := by
  obtain ⟨hlt, e⟩ := AVLTree.index_eq_getElem? ht.inv i h0 h1
  have hx : t.toList[i.toNat]? = some t.toList[i.toNat] := List.getElem?_eq_getElem hlt
  refine ⟨t.toList[i.toNat], by rw [e, hx], ?_⟩
  obtain ⟨k, e1, e2⟩ := (AVLTree.tree_find_spec ht.inv _).2 (List.getElem_mem hlt)
  have hk : i.toNat = k := List.getElem?_inj hlt hd (by rw [hx, e2])
  rw [e1, ← hk]
  exact Int.toNat_of_nonneg h0

theorem find_index_eq_self_witness :
    Reachable scenarioTree ∧ scenarioTree.toList.Nodup ∧ (0 : Int) ≤ 2 ∧
      (2 : Int) < scenarioTree.size ∧
      ∃ x, scenarioTree.index 2 = some x ∧ scenarioTree.find x = 2 :=
  ⟨scenarioTree_reachable, by decide, by decide, by decide,
    find_index_eq_self scenarioTree scenarioTree_reachable (by decide) 2 (by decide)
      (by decide)⟩

/-- C10: for every reachable tree (duplicates allowed) and every value `v`, `find(v)`
returns -1 exactly when `v` is not stored; when `v` is stored it returns an index `r` with
`0 ≤ r < size()` such that `operator[](r)` returns `v`, i.e. the in-order rank of a node
holding `v`. -/
theorem find_returns_rank_or_sentinel (t : AVLTree) (ht : Reachable t) (v : Int) :
    (t.find v = -1 ↔ v ∉ t.toList) ∧
      (v ∈ t.toList → 0 ≤ t.find v ∧ t.find v < t.size ∧ t.index (t.find v) = some v ∧
        t.toList[(t.find v).toNat]? = some v) := by
  obtain ⟨f1, f2⟩ := AVLTree.tree_find_spec ht.inv v
  have key : v ∈ t.toList → 0 ≤ t.find v ∧ t.find v < t.size ∧
      t.index (t.find v) = some v ∧ t.toList[(t.find v).toNat]? = some v := by
    intro hv
    obtain ⟨k, e1, e2⟩ := f2 hv
    have hk : k < t.toList.length := (List.getElem?_eq_some.1 e2).1
    have hlt : (k : Int) < t.size := by
      rw [AVLTree.size_eq_length ht.inv]
      exact_mod_cast hk
    have h0 : (0 : Int) ≤ (k : Int) := Int.ofNat_nonneg k
    obtain ⟨-, e3⟩ := AVLTree.index_eq_getElem? ht.inv (k : Int) h0 hlt
    rw [e1]
    refine ⟨h0, hlt, ?_, ?_⟩
    · rw [e3]
      simpa using e2
    · simpa using e2
  refine ⟨⟨fun h hv => ?_, f1⟩, key⟩
  have := (key hv).1
  omega

theorem find_returns_rank_or_sentinel_witness :
    Reachable scenarioTree ∧
      ((scenarioTree.find 4 = -1 ↔ (4 : Int) ∉ scenarioTree.toList) ∧
        ((4 : Int) ∈ scenarioTree.toList → 0 ≤ scenarioTree.find 4 ∧
          scenarioTree.find 4 < scenarioTree.size ∧
          scenarioTree.index (scenarioTree.find 4) = some 4 ∧
          scenarioTree.toList[(scenarioTree.find 4).toNat]? = some 4)) :=
  ⟨scenarioTree_reachable, find_returns_rank_or_sentinel scenarioTree scenarioTree_reachable 4⟩

/-! ## Bounds -/

namespace Node

theorem lower_bound_spec : ∀ {n : Node}, AggOK n → Ordered n → ∀ v idx : Int,
    ∃ pre post, toList n = pre ++ post ∧ lower_bound n v idx = idx + (pre.length : Int) ∧
      (∀ a ∈ pre, a < v) ∧ (∀ b ∈ post, v ≤ b)
  | nil, _, _, v, idx => ⟨[], [], by simp [lower_bound]⟩
  | mk l r x c h s, hn, ho, v, idx => by
    obtain ⟨hl, hr, -, -, -⟩ := (aggOK_mk_iff _ _ _ _ _ _).1 hn
    obtain ⟨hol, hor, hlx, hxr⟩ := (ordered_mk_iff _ _ _ _ _ _).1 ho
    have hcl := countOr0_eq_length hl
    unfold lower_bound
    by_cases hx : x ≥ v
    · rw [if_pos hx]
      obtain ⟨pre, post, e1, e2, h1, h2⟩ := lower_bound_spec hl hol v idx
      refine ⟨pre, post ++ x :: toList r, by simp [e1], e2, h1, ?_⟩
      intro b hb
      simp only [List.mem_append, List.mem_cons] at hb
      rcases hb with hb | rfl | hb
      · exact h2 b hb
      · exact hx
      · exact le_trans hx (hxr b hb)
    · rw [if_neg hx]
      have hxv : x < v := not_le.1 hx
      obtain ⟨pre, post, e1, e2, h1, h2⟩ :=
        lower_bound_spec hr hor v (idx + (countOr0 l + 1))
      refine ⟨toList l ++ x :: pre, post, by simp [e1], ?_, ?_, h2⟩
      · rw [e2, hcl]
        simp only [List.length_append, List.length_cons]
        push_cast
        ring
      · intro a ha
        simp only [List.mem_append, List.mem_cons] at ha
        rcases ha with ha | rfl | ha
        · exact lt_of_le_of_lt (hlx a ha) hxv
        · exact hxv
        · exact h1 a ha

theorem upper_bound_spec : ∀ {n : Node}, AggOK n → Ordered n → ∀ v idx : Int,
    ∃ pre post, toList n = pre ++ post ∧ upper_bound n v idx = idx + (pre.length : Int) ∧
      (∀ a ∈ pre, a ≤ v) ∧ (∀ b ∈ post, v < b)
  | nil, _, _, v, idx => ⟨[], [], by simp [upper_bound]⟩
  | mk l r x c h s, hn, ho, v, idx => by
    obtain ⟨hl, hr, -, -, -⟩ := (aggOK_mk_iff _ _ _ _ _ _).1 hn
    obtain ⟨hol, hor, hlx, hxr⟩ := (ordered_mk_iff _ _ _ _ _ _).1 ho
    have hcl := countOr0_eq_length hl
    unfold upper_bound
    by_cases hx : x > v
    · rw [if_pos hx]
      obtain ⟨pre, post, e1, e2, h1, h2⟩ := upper_bound_spec hl hol v idx
      refine ⟨pre, post ++ x :: toList r, by simp [e1], e2, h1, ?_⟩
      intro b hb
      simp only [List.mem_append, List.mem_cons] at hb
      rcases hb with hb | rfl | hb
      · exact h2 b hb
      · exact hx
      · exact lt_of_lt_of_le hx (hxr b hb)
    · rw [if_neg hx]
      have hxv : x ≤ v := not_lt.1 hx
      obtain ⟨pre, post, e1, e2, h1, h2⟩ :=
        upper_bound_spec hr hor v (idx + (countOr0 l + 1))
      refine ⟨toList l ++ x :: pre, post, by simp [e1], ?_, ?_, h2⟩
      · rw [e2, hcl]
        simp only [List.length_append, List.length_cons]
        push_cast
        ring
      · intro a ha
        simp only [List.mem_append, List.mem_cons] at ha
        rcases ha with ha | rfl | ha
        · exact le_trans (hlx a ha) hxv
        · exact hxv
        · exact h1 a ha

theorem filter_length_split {p : Int → Bool} {pre post : List Int}
    (h1 : ∀ a ∈ pre, p a = true) (h2 : ∀ b ∈ post, ¬ p b = true) :
    ((pre ++ post).filter p).length = pre.length := by
  rw [List.filter_append, List.filter_eq_self.2 h1, List.filter_eq_nil_iff.2 h2]
  simp

end Node

/-- C11: for every reachable tree (duplicates allowed) and every value `v`,
`lower_bound(v)` is the number of stored elements strictly less than `v` and
`upper_bound(v)` is the number of stored elements less than or equal to `v`. -/
theorem bounds_count_smaller_elements (t : AVLTree) (ht : Reachable t) (v : Int) :
    t.lower_bound v = ((t.toList.filter (fun x => decide (x < v))).length : Int) ∧
      t.upper_bound v = ((t.toList.filter (fun x => decide (x ≤ v))).length : Int) := by
  obtain ⟨hn, ho, -⟩ := ht.inv
  constructor
  · obtain ⟨pre, post, e1, e2, h1, h2⟩ := Node.lower_bound_spec hn ho v 0
    have e3 : t.toList = pre ++ post := e1
    have e4 : t.lower_bound v = 0 + (pre.length : Int) := e2
    rw [e3, e4, Node.filter_length_split (fun a ha => by simpa using h1 a ha)
      (fun b hb => by simpa using h2 b hb)]
    ring
  · obtain ⟨pre, post, e1, e2, h1, h2⟩ := Node.upper_bound_spec hn ho v 0
    have e3 : t.toList = pre ++ post := e1
    have e4 : t.upper_bound v = 0 + (pre.length : Int) := e2
    rw [e3, e4, Node.filter_length_split (fun a ha => by simpa using h1 a ha)
      (fun b hb => by simpa using h2 b hb)]
    ring

theorem bounds_count_smaller_elements_witness :
    Reachable duplicateTree ∧ duplicateTree.lower_bound 2 = 0 ∧
      duplicateTree.upper_bound 2 = 3 :=
  ⟨⟨duplicateOps, rfl⟩,
    bounds_count_smaller_elements duplicateTree ⟨duplicateOps, rfl⟩ 2⟩

/-- C12: for every reachable tree and every value `v`: when `lower_bound(v) < size()`,
`operator[](lower_bound(v))` returns the first element of the in-order sequence that is
`≥ v` (it is `≥ v` and every element at a smaller index is `< v`); when
`lower_bound(v) == size()`, no stored element is `≥ v`. -/
theorem index_lower_bound_is_first_not_less (t : AVLTree) (ht : Reachable t) (v : Int) :
    (t.lower_bound v < t.size →
        ∃ x, t.index (t.lower_bound v) = some x ∧
          t.toList[(t.lower_bound v).toNat]? = some x ∧ v ≤ x ∧
          ∀ (j : Nat) (y : Int), (j : Int) < t.lower_bound v → t.toList[j]? = some y → y < v) ∧
      (t.lower_bound v = t.size → ∀ y ∈ t.toList, ¬ v ≤ y) := by
  obtain ⟨hn, ho, -⟩ := ht.inv
  obtain ⟨pre, post, e1, e2, h1, h2⟩ := Node.lower_bound_spec hn ho v 0
  have e3 : t.toList = pre ++ post := e1
  have e4 : t.lower_bound v = (pre.length : Int) := by
    have : t.lower_bound v = 0 + (pre.length : Int) := e2
    rw [this]
    ring
  have e5 : t.size = ((pre.length + post.length : Nat) : Int) := by
    rw [AVLTree.size_eq_length ht.inv, e3, List.length_append]
  rw [e4, e5]
  constructor
  · intro hlt
    have hpos : 0 < post.length := by
      have : pre.length < pre.length + post.length := by exact_mod_cast hlt
      omega
    obtain ⟨x, post1, rfl⟩ : ∃ x post1, post = x :: post1 := by
      cases post with
      | nil => simp at hpos
      | cons x post1 => exact ⟨x, post1, rfl⟩
    have hget : t.toList[pre.length]? = some x := by
      rw [e3]
      exact Node.getElem?_mid _ _ _
    have hidx := (AVLTree.index_eq_getElem? ht.inv (pre.length : Int) (Int.ofNat_nonneg _)
      (by rw [e5]; exact hlt)).2
    refine ⟨x, ?_, ?_, h2 x (by simp), ?_⟩
    · rw [hidx]
      simpa using hget
    · simpa using hget
    · intro j y hj hy
      have hj1 : j < pre.length := by exact_mod_cast hj
      rw [e3, List.getElem?_append_left hj1] at hy
      exact h1 y (List.getElem?_mem hy)
  · intro heq
    have hlen : post.length = 0 := by
      have : pre.length = pre.length + post.length := by exact_mod_cast heq
      omega
    have hnil : post = [] := List.length_eq_zero.1 hlen
    intro y hy
    rw [e3, hnil, List.append_nil] at hy
    exact not_le.2 (h1 y hy)

theorem index_lower_bound_is_first_not_less_witness :
    Reachable scenarioTree ∧
      ((scenarioTree.lower_bound 6 < scenarioTree.size →
          ∃ x, scenarioTree.index (scenarioTree.lower_bound 6) = some x ∧
            scenarioTree.toList[(scenarioTree.lower_bound 6).toNat]? = some x ∧ 6 ≤ x ∧
            ∀ (j : Nat) (y : Int), (j : Int) < scenarioTree.lower_bound 6 →
              scenarioTree.toList[j]? = some y → y < 6) ∧
        (scenarioTree.lower_bound 6 = scenarioTree.size →
          ∀ y ∈ scenarioTree.toList, ¬ (6 : Int) ≤ y)) :=
  ⟨scenarioTree_reachable,
    index_lower_bound_is_first_not_less scenarioTree scenarioTree_reachable 6⟩

/-! ## Extremes -/

namespace Node

theorem find_min_eq_head? : ∀ n : Node, find_min n = (toList n).head?
  | nil => rfl
  | mk nil r v c h s => by simp [find_min]
  | mk (mk a b x y z w) r v c h s => by
    have ih := find_min_eq_head? (mk a b x y z w)
    have hne : toList (mk a b x y z w) ≠ [] := by simp
    rw [toList_mk, List.head?_append_of_ne_nil _ hne, ← ih]
    rfl

theorem find_max_eq_getLast? : ∀ n : Node, find_max n = (toList n).getLast?
  | nil => rfl
  | mk l nil v c h s => by simp [find_max]
  | mk l (mk a b x y z w) v c h s => by
    have ih := find_max_eq_getLast? (mk a b x y z w)
    have hne : toList (mk a b x y z w) ≠ [] := by simp
    have e : toList (mk l (mk a b x y z w) v c h s) =
        (toList l ++ [v]) ++ toList (mk a b x y z w) := by simp
    rw [e, List.getLast?_append_of_ne_nil _ hne, ← ih]
    rfl

theorem sorted_head_le {x : Int} {xs : List Int} (hs : (x :: xs).Sorted (· ≤ ·)) :
    ∀ y ∈ x :: xs, x ≤ y := by
  intro y hy
  rcases List.mem_cons.1 hy with rfl | hy
  · exact le_refl _
  · exact (List.pairwise_cons.1 hs).1 y hy

theorem sorted_le_last {x : Int} {xs : List Int} (hs : (xs ++ [x]).Sorted (· ≤ ·)) :
    ∀ y ∈ xs ++ [x], y ≤ x := by
  intro y hy
  rcases List.mem_append.1 hy with hy | hy
  · exact (List.pairwise_append.1 hs).2.2 y hy x (by simp)
  · rw [List.mem_singleton.1 hy]

end Node

/-- C13: for every non-empty reachable tree, `find_min()` returns a stored value that is
`≤` every stored value and `find_max()` returns a stored value that is `≥` every stored
value; they are the values of `operator[](0)` and `operator[](size() - 1)`. -/
theorem find_min_max_are_extremes (t : AVLTree) (ht : Reachable t) (hne : t.empty = false) :
    ∃ mn mx, t.find_min = some mn ∧ t.find_max = some mx ∧
      mn ∈ t.toList ∧ mx ∈ t.toList ∧
      (∀ y ∈ t.toList, mn ≤ y) ∧ (∀ y ∈ t.toList, y ≤ mx) ∧
      t.index 0 = some mn ∧ t.index (t.size - 1) = some mx := by
  have hinv := ht.inv
  have hsize := AVLTree.size_eq_length hinv
  have hsorted : t.toList.Sorted (· ≤ ·) := hinv.2.1
  have hlen : t.toList.length ≠ 0 := by
    intro h0
    have h1 : t._size = 0 := by
      have : t.size = 0 := by rw [hsize, h0]; rfl
      exact this
    simp [AVLTree.empty, h1] at hne
  have hnil : t.toList ≠ [] := fun h => hlen (by rw [h]; rfl)
  have hpos : 0 < t.toList.length := Nat.pos_of_ne_zero hlen
  have hmin : t.find_min = t.toList.head? := Node.find_min_eq_head? t.root
  have hmax : t.find_max = t.toList.getLast? := Node.find_max_eq_getLast? t.root
  have i0 := (AVLTree.index_eq_getElem? hinv 0 (le_refl _)
    (by rw [hsize]; exact_mod_cast hpos)).2
  have i1 := (AVLTree.index_eq_getElem? hinv (t.size - 1) (by rw [hsize]; omega)
    (by omega)).2
  have e1 : (t.size - 1).toNat = t.toList.length - 1 := by
    rw [hsize]
    omega
  rw [e1, ← List.getLast?_eq_getElem?] at i1
  rw [Int.toNat_zero, ← List.head?_eq_getElem?] at i0
  rw [hmin, hmax, i0, i1]
  obtain ⟨x, xs, hx⟩ : ∃ x xs, t.toList = x :: xs := by
    cases hl : t.toList with
    | nil => exact absurd hl hnil
    | cons x xs => exact ⟨x, xs, rfl⟩
  have hlast : t.toList = t.toList.dropLast ++ [t.toList.getLast hnil] :=
    (List.dropLast_append_getLast hnil).symm
  refine ⟨x, t.toList.getLast hnil, by rw [hx]; rfl, List.getLast?_eq_getLast _ hnil,
    by rw [hx]; simp, List.getLast_mem hnil, ?_, ?_, by rw [hx]; rfl,
    List.getLast?_eq_getLast _ hnil⟩
  · rw [hx] at hsorted ⊢
    exact Node.sorted_head_le hsorted
  · intro y hy
    rw [hlast] at hsorted hy
    exact Node.sorted_le_last hsorted y hy

theorem find_min_max_are_extremes_witness :
    Reachable scenarioTree ∧ scenarioTree.empty = false ∧
      ∃ mn mx, scenarioTree.find_min = some mn ∧ scenarioTree.find_max = some mx ∧
        mn ∈ scenarioTree.toList ∧ mx ∈ scenarioTree.toList ∧
        (∀ y ∈ scenarioTree.toList, mn ≤ y) ∧ (∀ y ∈ scenarioTree.toList, y ≤ mx) ∧
        scenarioTree.index 0 = some mn ∧
        scenarioTree.index (scenarioTree.size - 1) = some mx :=
  ⟨scenarioTree_reachable, by decide,
    find_min_max_are_extremes scenarioTree scenarioTree_reachable (by decide)⟩

/-! ## Round trip -/

theorem run_append : ∀ (ops1 ops2 : List Op) (t : AVLTree),
    run (ops1 ++ ops2) t = (run ops1 t).bind (run ops2)
  | [], ops2, t => by simp [run]
  | op :: ops1, ops2, t => by
    simp only [List.cons_append, run]
    cases op.apply t with
    | none => rfl
    | some t1 => simpa using run_append ops1 ops2 t1

theorem run_inserts : ∀ (xs : List Int) {t : AVLTree}, t.Inv →
    ∃ t1, run (xs.map Op.insert) t = some t1 ∧ t1.Inv ∧ t1.toList.Perm (xs ++ t.toList)
  | [], t, hinv => ⟨t, rfl, hinv, by simp⟩
  | x :: xs, t, hinv => by
    obtain ⟨t1, e1, h1, -, pre, post, e2, e3⟩ := AVLTree.tree_insert_spec hinv x
    obtain ⟨t2, e4, h2, hp⟩ := run_inserts xs h1
    refine ⟨t2, by simp [run, Op.apply, e1, e4], h2, ?_⟩
    rw [e3] at hp
    rw [e2]
    have hp1 : (xs ++ (pre ++ x :: post)).Perm (xs ++ x :: (pre ++ post)) :=
      List.Perm.append_left xs List.perm_middle
    have hp2 : (xs ++ x :: (pre ++ post)).Perm (x :: xs ++ (pre ++ post)) :=
      List.perm_middle
    exact hp.trans (hp1.trans hp2)

theorem run_erases : ∀ (ys : List Int) {t : AVLTree}, t.Inv → t.toList.Perm ys →
    ∃ t1, run (ys.map Op.erase) t = some t1 ∧ t1.Inv ∧ t1.toList = []
  | [], t, hinv, hp => ⟨t, rfl, hinv, List.Perm.eq_nil hp⟩
  | y :: ys, t, hinv, hp => by
    have hy : y ∈ t.toList := hp.symm.subset (by simp)
    obtain ⟨t1, e1, h1, -, hyes⟩ := AVLTree.tree_erase_spec hinv y
    obtain ⟨-, pre, post, e2, e3⟩ := hyes hy
    have hp1 : (y :: (pre ++ post)).Perm (y :: ys) := by
      rw [e2] at hp
      exact List.perm_middle.symm.trans hp
    have hp2 : t1.toList.Perm ys := by
      rw [e3]
      exact hp1.cons_inv
    obtain ⟨t2, e4, h2, hnil⟩ := run_erases ys h1 hp2
    exact ⟨t2, by simp [run, Op.apply, e1, e4], h2, hnil⟩

/-- C14: for every finite list of values (duplicates allowed), inserting all of them into
an empty tree and then erasing each of them once, in any order, runs without error and
yields the empty tree: the root is absent, `size() == 0` and `empty()` is true. -/
theorem insert_all_then_erase_all_is_empty (xs ys : List Int) (hp : ys.Perm xs) :
    ∃ t, run (xs.map Op.insert ++ ys.map Op.erase) AVLTree.new = some t ∧
      t.root = Node.nil ∧ t.size = 0 ∧ t.empty = true ∧ t = AVLTree.new := by
  obtain ⟨t1, e1, h1, hp1⟩ := run_inserts xs AVLTree.inv_new
  have hp2 : t1.toList.Perm ys := by
    have : (xs ++ AVLTree.new.toList) = xs := by simp [AVLTree.toList, AVLTree.new]
    rw [this] at hp1
    exact hp1.trans hp.symm
  obtain ⟨t2, e2, h2, hnil⟩ := run_erases ys h1 hp2
  have hroot : t2.root = Node.nil := Node.toList_eq_nil_iff.1 hnil
  have hsize : t2._size = 0 := by
    rw [h2.2.2, hroot]
    rfl
  refine ⟨t2, ?_, hroot, hsize, ?_, ?_⟩
  · rw [run_append, e1]
    exact e2
  · simp [AVLTree.empty, hsize]
  · cases t2 with
    | mk sz root =>
      simp only at hroot hsize
      subst hroot
      subst hsize
      rfl

theorem insert_all_then_erase_all_is_empty_witness :
    [3, 1, 8, 5, 3].Perm ([5, 3, 8, 3, 1] : List Int) ∧
      ∃ t, run (([5, 3, 8, 3, 1] : List Int).map Op.insert ++
          ([3, 1, 8, 5, 3] : List Int).map Op.erase) AVLTree.new = some t ∧
        t.root = Node.nil ∧ t.size = 0 ∧ t.empty = true ∧ t = AVLTree.new :=
  ⟨by decide, insert_all_then_erase_all_is_empty [5, 3, 8, 3, 1] [3, 1, 8, 5, 3] (by decide)⟩

/-! ## Precondition violations -/

namespace Node

end Node

namespace Node

end Node

namespace AVLTree

end AVLTree

namespace Node

theorem searchOrdered_of_ordered : ∀ {n : Node}, Ordered n → SearchOrdered n
  | nil, _ => trivial
  | mk l r v c h s, ho => by
    obtain ⟨hol, hor, hlv, hvr⟩ := (ordered_mk_iff _ _ _ _ _ _).1 ho
    exact ⟨searchOrdered_of_ordered hol, searchOrdered_of_ordered hor, hlv, hvr⟩

end Node

/-- C16, as amended: between public operations, at every node of every reachable tree all
values of the left subtree are less than or equal to the node's value and all values of
the right subtree are greater than or equal to it. -/
theorem reachable_search_ordered (t : AVLTree) (ht : Reachable t) :
    Node.SearchOrdered t.root :=
  Node.searchOrdered_of_ordered ht.inv.2.1

theorem reachable_search_ordered_witness :
    Reachable duplicateTree ∧ Node.SearchOrdered duplicateTree.root :=
  ⟨⟨duplicateOps, rfl⟩, reachable_search_ordered duplicateTree ⟨duplicateOps, rfl⟩⟩

/-- C16, as stated, fails: after `insert(2), insert(2), insert(2)` the left rotation at the
root leaves the value 2 in the left subtree of the root, whose value is 2, so the left
subtree is not strictly smaller. -/
theorem equal_value_in_left_subtree :
    run duplicateOps AVLTree.new = some duplicateTree ∧
      duplicateTree.root = Node.mk (Node.leaf 2) (Node.leaf 2) 2 3 2 6 ∧
      ¬ Node.StrictLeftOrdered duplicateTree.root := by
  refine ⟨rfl, rfl, ?_⟩
  intro h
  have h2 := h.2.2.1 2 (by decide)
  exact absurd h2 (by decide)

/-- C17, as amended: a freshly created node `AVLTreeNode(value)` has `count = 1`,
`height = 1`, `sum = T()` (the additive identity 0) and no children; the first
`updateValues()` on it, which `insert` performs through `balance` before it returns, sets
`sum = value`. -/
theorem new_node_fields (value : Int) :
    Node.new value = Node.mk Node.nil Node.nil value 1 1 0 ∧
      Node.countOr0 (Node.new value) = 1 ∧ Node.heightOr0 (Node.new value) = 1 ∧
      Node.sumOr0 (Node.new value) = 0 ∧
      Node.left? (Node.new value) = some Node.nil ∧
      Node.right? (Node.new value) = some Node.nil ∧
      Node.updateValues (Node.new value) = some (Node.mk Node.nil Node.nil value 1 1 value) ∧
      Node.insert Node.nil value = some (Node.mk Node.nil Node.nil value 1 1 value) := by
  refine ⟨rfl, rfl, rfl, rfl, rfl, rfl, ?_, ?_⟩
  · simp [Node.new, Node.updateValues]
  · simp [Node.insert, Node.balanceStep_new]

/-- C17, as stated, fails: the constructor `AVLTreeNode(5)` yields a node whose `sum` is 0
(the value of `T()`), not 5. -/
theorem new_node_sum_ne_value :
    Node.new 5 = Node.mk Node.nil Node.nil 5 1 1 0 ∧ Node.sumOr0 (Node.new 5) = 0 ∧
      Node.sumOr0 (Node.new 5) ≠ 5 :=
  ⟨rfl, rfl, by decide⟩

/-! ## Balance under insertion -/

namespace Node

theorem heightOK_mk_iff (l r : Node) (v c h s : Int) :
    HeightOK (mk l r v c h s) ↔
      HeightOK l ∧ HeightOK r ∧ h = max (heightOr0 l) (heightOr0 r) + 1 := by
  simp [HeightOK]

theorem balanced_mk_iff (l r : Node) (v c h s : Int) :
    Balanced (mk l r v c h s) ↔
      Balanced l ∧ Balanced r ∧ -1 ≤ heightOr0 l - heightOr0 r ∧
        heightOr0 l - heightOr0 r ≤ 1 := by
  simp [Balanced]

theorem heightOK_of_aggOK : ∀ {n : Node}, AggOK n → HeightOK n
  | nil, _ => trivial
  | mk l r v c h s, hn => by
    obtain ⟨hl, hr, -, hh, -⟩ := (aggOK_mk_iff _ _ _ _ _ _).1 hn
    exact ⟨heightOK_of_aggOK hl, heightOK_of_aggOK hr, hh⟩

theorem heightOK_nonneg : ∀ {n : Node}, HeightOK n → 0 ≤ heightOr0 n
  | nil, _ => by simp
  | mk l r v c h s, hn => by
    obtain ⟨hl, hr, hh⟩ := (heightOK_mk_iff _ _ _ _ _ _).1 hn
    have := heightOK_nonneg hl
    have := heightOK_nonneg hr
    show 0 ≤ h
    omega

theorem heightOK_updated {l r : Node} (hl : HeightOK l) (hr : HeightOK r) (v c s : Int) :
    HeightOK (mk l r v c (max (heightOr0 l) (heightOr0 r) + 1) s) :=
  ⟨hl, hr, rfl⟩

theorem balanceStep_balanced {l r : Node} (hl : HeightOK l) (hr : HeightOK r)
    (bl : Balanced l) (br : Balanced r) (v c h s : Int)
    (hd1 : heightOr0 l - heightOr0 r ≤ 2) (hd2 : -2 ≤ heightOr0 l - heightOr0 r)
    (hL : heightOr0 l - heightOr0 r = 2 → balanceFactor l ≠ some 0)
    (hR : heightOr0 l - heightOr0 r = -2 → balanceFactor r ≠ some 0) :
    ∃ n, balanceStep (mk l r v c h s) = some n ∧ HeightOK n ∧ Balanced n ∧
      ((-1 ≤ heightOr0 l - heightOr0 r ∧ heightOr0 l - heightOr0 r ≤ 1 ∧
          heightOr0 n = max (heightOr0 l) (heightOr0 r) + 1 ∧
          balanceFactor n = some (heightOr0 l - heightOr0 r)) ∨
        ((heightOr0 l - heightOr0 r = 2 ∨ heightOr0 l - heightOr0 r = -2) ∧
          heightOr0 n = max (heightOr0 l) (heightOr0 r) ∧ balanceFactor n = some 0)) := by
  have hl0 := heightOK_nonneg hl
  have hr0 := heightOK_nonneg hr
  simp only [balanceStep, updateValues, balanceFactor, left?, right?, Option.bind_eq_bind,
    Option.some_bind]
  by_cases h2 : heightOr0 l - heightOr0 r ≥ 2
  · rw [if_pos h2]
    cases l with
    | nil => simp only [heightOr0_nil] at h2; omega
    | mk ll lr lv lc lh ls =>
      obtain ⟨hll, hlr, hlh⟩ := (heightOK_mk_iff _ _ _ _ _ _).1 hl
      obtain ⟨bll, blr, b1, b2⟩ := (balanced_mk_iff _ _ _ _ _ _).1 bl
      have hll0 := heightOK_nonneg hll
      have hlr0 := heightOK_nonneg hlr
      have hne : heightOr0 ll - heightOr0 lr ≠ 0 := by
        intro e
        apply hL (by omega)
        simp only [balanceFactor, e]
      simp only [heightOr0_mk] at h2 hd1
      simp only [balanceFactor, Option.some_bind]
      by_cases h1 : heightOr0 ll - heightOr0 lr ≥ 1
      · rw [if_pos h1]
        refine ⟨_, rfl, ?_, ?_, Or.inr ?_⟩
        · exact heightOK_updated hll (heightOK_updated hlr hr _ _ _) _ _ _
        · refine (balanced_mk_iff _ _ _ _ _ _).2 ⟨bll, (balanced_mk_iff _ _ _ _ _ _).2
            ⟨blr, br, ?_, ?_⟩, ?_, ?_⟩ <;> (try simp only [heightOr0_mk]) <;> omega
        · simp only [heightOr0_mk, balanceFactor]
          refine ⟨Or.inl (by omega), by omega, ?_⟩
          congr 1
          omega
      · rw [if_neg h1]
        cases lr with
        | nil =>
          simp only [heightOr0_nil, heightOr0_mk] at h1 h2 hlh hr0 hne
          omega
        | mk a b x y z w =>
          obtain ⟨ha, hb, hz⟩ := (heightOK_mk_iff _ _ _ _ _ _).1 hlr
          obtain ⟨ba, bb, b3, b4⟩ := (balanced_mk_iff _ _ _ _ _ _).1 blr
          have ha0 := heightOK_nonneg ha
          have hb0 := heightOK_nonneg hb
          simp only [heightOr0_mk] at h1 hlh hne b1 b2 hlr0
          refine ⟨_, rfl, ?_, ?_, Or.inr ?_⟩
          · exact heightOK_updated (heightOK_updated hll ha _ _ _)
              (heightOK_updated hb hr _ _ _) _ _ _
          · refine (balanced_mk_iff _ _ _ _ _ _).2 ⟨(balanced_mk_iff _ _ _ _ _ _).2
              ⟨bll, ba, ?_, ?_⟩, (balanced_mk_iff _ _ _ _ _ _).2 ⟨bb, br, ?_, ?_⟩, ?_, ?_⟩ <;>
              (try simp only [heightOr0_mk]) <;> omega
          · simp only [heightOr0_mk, balanceFactor]
            refine ⟨Or.inl (by omega), by omega, ?_⟩
            congr 1
            omega
  · rw [if_neg h2]
    by_cases h3 : heightOr0 l - heightOr0 r ≤ -2
    · rw [if_pos h3]
      cases r with
      | nil => simp only [heightOr0_nil] at h3; omega
      | mk rl rr rv rc rh rs =>
        obtain ⟨hrl, hrr, hrh⟩ := (heightOK_mk_iff _ _ _ _ _ _).1 hr
        obtain ⟨brl, brr, b1, b2⟩ := (balanced_mk_iff _ _ _ _ _ _).1 br
        have hrl0 := heightOK_nonneg hrl
        have hrr0 := heightOK_nonneg hrr
        have hne : heightOr0 rl - heightOr0 rr ≠ 0 := by
          intro e
          apply hR (by omega)
          simp only [balanceFactor, e]
        simp only [heightOr0_mk] at h3 hd2
        simp only [balanceFactor, Option.some_bind]
        by_cases h1 : heightOr0 rl - heightOr0 rr ≤ -1
        · rw [if_pos h1]
          refine ⟨_, rfl, ?_, ?_, Or.inr ?_⟩
          · exact heightOK_updated (heightOK_updated hl hrl _ _ _) hrr _ _ _
          · refine (balanced_mk_iff _ _ _ _ _ _).2 ⟨(balanced_mk_iff _ _ _ _ _ _).2
              ⟨bl, brl, ?_, ?_⟩, brr, ?_, ?_⟩ <;> (try simp only [heightOr0_mk]) <;> omega
          · simp only [heightOr0_mk, balanceFactor]
            refine ⟨Or.inr (by omega), by omega, ?_⟩
            congr 1
            omega
        · rw [if_neg h1]
          cases rl with
          | nil =>
            simp only [heightOr0_nil, heightOr0_mk] at h1 h3 hrh hl0 hne
            omega
          | mk a b x y z w =>
            obtain ⟨ha, hb, hz⟩ := (heightOK_mk_iff _ _ _ _ _ _).1 hrl
            obtain ⟨ba, bb, b3, b4⟩ := (balanced_mk_iff _ _ _ _ _ _).1 brl
            have ha0 := heightOK_nonneg ha
            have hb0 := heightOK_nonneg hb
            simp only [heightOr0_mk] at h1 hrh hne b1 b2 hrl0
            refine ⟨_, rfl, ?_, ?_, Or.inr ?_⟩
            · exact heightOK_updated (heightOK_updated hl ha _ _ _)
                (heightOK_updated hb hrr _ _ _) _ _ _
            · refine (balanced_mk_iff _ _ _ _ _ _).2 ⟨(balanced_mk_iff _ _ _ _ _ _).2
                ⟨bl, ba, ?_, ?_⟩, (balanced_mk_iff _ _ _ _ _ _).2 ⟨bb, brr, ?_, ?_⟩, ?_, ?_⟩ <;>
                (try simp only [heightOr0_mk]) <;> omega
            · simp only [heightOr0_mk, balanceFactor]
              refine ⟨Or.inr (by omega), by omega, ?_⟩
              congr 1
              omega
    · rw [if_neg h3]
      refine ⟨_, rfl, heightOK_updated hl hr _ _ _, ?_, Or.inl ?_⟩
      · exact (balanced_mk_iff _ _ _ _ _ _).2 ⟨bl, br, by omega, by omega⟩
      · exact ⟨by omega, by omega, rfl, rfl⟩

end Node

namespace Node

theorem insert_balanced : ∀ {n : Node}, HeightOK n → Balanced n → ∀ x : Int,
    ∃ n1, insert n x = some n1 ∧ HeightOK n1 ∧ Balanced n1 ∧
      (heightOr0 n1 = heightOr0 n ∨
        (heightOr0 n1 = heightOr0 n + 1 ∧ (n = nil ∨ balanceFactor n1 ≠ some 0)))
  | nil, _, _, x => by
    refine ⟨mk nil nil x 1 1 x, ?_, ⟨trivial, trivial, rfl⟩, ?_, Or.inr ⟨rfl, Or.inl rfl⟩⟩
    · simp [insert, balanceStep_new]
    · simp [Balanced]
  | mk l r v c h s, hn, bn, x => by
    obtain ⟨hl, hr, hh⟩ := (heightOK_mk_iff _ _ _ _ _ _).1 hn
    obtain ⟨bl, br, b1, b2⟩ := (balanced_mk_iff _ _ _ _ _ _).1 bn
    have hl0 := heightOK_nonneg hl
    have hr0 := heightOK_nonneg hr
    by_cases hv : v > x
    · obtain ⟨l1, e1, hl1, bl1, hrel⟩ := insert_balanced hl bl x
      have hL : heightOr0 l1 - heightOr0 r = 2 → balanceFactor l1 ≠ some 0 := by
        intro e
        rcases hrel with h1 | ⟨h1, hnil | hbf⟩
        · omega
        · subst hnil
          simp only [heightOr0_nil] at h1 b1 b2
          omega
        · exact hbf
      have hR : heightOr0 l1 - heightOr0 r = -2 → balanceFactor r ≠ some 0 := by
        intro e
        rcases hrel with h1 | ⟨h1, -⟩ <;> omega
      obtain ⟨n1, e2, hn1, bn1, hcase⟩ := balanceStep_balanced hl1 hr bl1 br v c h s
        (by rcases hrel with h1 | ⟨h1, -⟩ <;> omega)
        (by rcases hrel with h1 | ⟨h1, -⟩ <;> omega) hL hR
      refine ⟨n1, by simp [insert, hv, e1, e2], hn1, bn1, ?_⟩
      simp only [heightOr0_mk]
      rcases hcase with ⟨c1, c2, c3, c4⟩ | ⟨c1, c3, c4⟩
      · rcases hrel with h1 | ⟨h1, -⟩
        · left
          omega
        · by_cases hd : heightOr0 l1 - heightOr0 r = 0
          · left
            omega
          · right
            refine ⟨by omega, Or.inr ?_⟩
            rw [c4]
            intro e
            exact hd (Option.some.inj e)
      · left
        rcases hrel with h1 | ⟨h1, -⟩ <;> omega
    · obtain ⟨r1, e1, hr1, br1, hrel⟩ := insert_balanced hr br x
      have hR : heightOr0 l - heightOr0 r1 = -2 → balanceFactor r1 ≠ some 0 := by
        intro e
        rcases hrel with h1 | ⟨h1, hnil | hbf⟩
        · omega
        · subst hnil
          simp only [heightOr0_nil] at h1 b1 b2
          omega
        · exact hbf
      have hL : heightOr0 l - heightOr0 r1 = 2 → balanceFactor l ≠ some 0 := by
        intro e
        rcases hrel with h1 | ⟨h1, -⟩ <;> omega
      obtain ⟨n1, e2, hn1, bn1, hcase⟩ := balanceStep_balanced hl hr1 bl br1 v c h s
        (by rcases hrel with h1 | ⟨h1, -⟩ <;> omega)
        (by rcases hrel with h1 | ⟨h1, -⟩ <;> omega) hL hR
      refine ⟨n1, by simp [insert, hv, e1, e2], hn1, bn1, ?_⟩
      simp only [heightOr0_mk]
      rcases hcase with ⟨c1, c2, c3, c4⟩ | ⟨c1, c3, c4⟩
      · rcases hrel with h1 | ⟨h1, -⟩
        · left
          omega
        · by_cases hd : heightOr0 l - heightOr0 r1 = 0
          · left
            omega
          · right
            refine ⟨by omega, Or.inr ?_⟩
            rw [c4]
            intro e
            exact hd (Option.some.inj e)
      · left
        rcases hrel with h1 | ⟨h1, -⟩ <;> omega

end Node

theorem run_inserts_balanced : ∀ (xs : List Int) {t : AVLTree},
    Node.HeightOK t.root → Node.Balanced t.root →
    ∃ t1, run (xs.map Op.insert) t = some t1 ∧ Node.HeightOK t1.root ∧ Node.Balanced t1.root
  | [], t, hh, hb => ⟨t, rfl, hh, hb⟩
  | x :: xs, t, hh, hb => by
    obtain ⟨n1, e1, h1, b1, -⟩ := Node.insert_balanced hh hb x
    obtain ⟨t2, e2, h2, b2⟩ :=
      run_inserts_balanced xs (t := ⟨t._size + 1, n1⟩) h1 b1
    refine ⟨t2, ?_, h2, b2⟩
    simp [run, Op.apply, AVLTree.insert, e1, e2]

/-- C18: insertion alone preserves AVL balance.  For every tree in which every node has an
exact `height` and `|balanceFactor| ≤ 1`, and every value `v`, `insert(v)` succeeds and
the new tree again has exact heights and `|balanceFactor| ≤ 1` at every node; hence
every sequence of `insert` calls builds a height-balanced tree from the empty tree. -/
theorem insert_preserves_balance :
    (∀ (t : AVLTree) (v : Int), Node.HeightOK t.root → Node.Balanced t.root →
        ∃ t1, t.insert v = some t1 ∧ Node.HeightOK t1.root ∧ Node.Balanced t1.root) ∧
      (∀ xs : List Int, ∃ t, run (xs.map Op.insert) AVLTree.new = some t ∧
        Node.Balanced t.root) := by
  constructor
  · intro t v hh hb
    obtain ⟨n1, e1, h1, b1, -⟩ := Node.insert_balanced hh hb v
    exact ⟨⟨t._size + 1, n1⟩, by simp [AVLTree.insert, e1], h1, b1⟩
  · intro xs
    obtain ⟨t, e, -, b⟩ := run_inserts_balanced xs (t := AVLTree.new) trivial trivial
    exact ⟨t, e, b⟩

theorem insert_preserves_balance_witness :
    Node.HeightOK scenarioTree.root ∧ Node.Balanced scenarioTree.root ∧
      ∃ t1, scenarioTree.insert 6 = some t1 ∧ Node.HeightOK t1.root ∧
        Node.Balanced t1.root :=
  ⟨Node.heightOK_of_aggOK scenarioTree_reachable.inv.1,
    by simp [Node.Balanced, scenarioTree, Node.leaf],
    insert_preserves_balance.1 scenarioTree 6
      (Node.heightOK_of_aggOK scenarioTree_reachable.inv.1)
      (by simp [Node.Balanced, scenarioTree, Node.leaf])⟩

/-! ## Absence of errors -/

theorem right_rotate_eq_none_iff (n : Node) :
    Node.right_rotate n = none ↔ (n = Node.nil ∨ Node.left? n = some Node.nil) := by
  cases n with
  | nil => simp [Node.right_rotate]
  | mk l r v c h s =>
    cases l with
    | nil => simp [Node.right_rotate, Node.left?]
    | mk a b x y z w => simp [Node.right_rotate, Node.left?, Node.updateValues]

theorem left_rotate_eq_none_iff (n : Node) :
    Node.left_rotate n = none ↔ (n = Node.nil ∨ Node.right? n = some Node.nil) := by
  cases n with
  | nil => simp [Node.left_rotate]
  | mk l r v c h s =>
    cases r with
    | nil => simp [Node.left_rotate, Node.right?]
    | mk a b x y z w => simp [Node.left_rotate, Node.right?, Node.updateValues]

/-- C19: rebalancing never rotates around a missing child.  In the embedding a rotation
returns the error result exactly when the node or the child it rotates around is missing,
and the error propagates through `balance`, `insert` and `erase`; the step of `balance`
succeeds on every node whose children have exact aggregates (whatever its balance
factor), `insert` and `erase` succeed on every reachable tree, and every sequence of calls
runs to the end from the empty tree. -/
theorem rebalancing_never_fails :
    (∀ n : Node, Node.right_rotate n = none ↔ (n = Node.nil ∨ Node.left? n = some Node.nil)) ∧
      (∀ n : Node, Node.left_rotate n = none ↔
        (n = Node.nil ∨ Node.right? n = some Node.nil)) ∧
      (∀ (l r : Node) (v c h s : Int), Node.AggOK l → Node.AggOK r →
        ∃ n, Node.balanceStep (Node.mk l r v c h s) = some n) ∧
      (∀ t : AVLTree, Reachable t → ∀ v : Int,
        (∃ t1, t.insert v = some t1) ∧ (∃ t1, t.erase v = some t1)) ∧
      (∀ ops : List Op, ∃ t, run ops AVLTree.new = some t) := by
  refine ⟨right_rotate_eq_none_iff, left_rotate_eq_none_iff, ?_, ?_, ?_⟩
  · intro l r v c h s hl hr
    obtain ⟨n, e, -⟩ := Node.balanceStep_spec hl hr v c h s
    exact ⟨n, e⟩
  · intro t ht v
    obtain ⟨t1, e1, -⟩ := AVLTree.tree_insert_spec ht.inv v
    obtain ⟨t2, e2, -⟩ := AVLTree.tree_erase_spec ht.inv v
    exact ⟨⟨t1, e1⟩, ⟨t2, e2⟩⟩
  · intro ops
    obtain ⟨t, e, -⟩ := run_spec ops AVLTree.inv_new
    exact ⟨t, e⟩

theorem rebalancing_never_fails_witness :
    Reachable unbalancedTree ∧ ¬ Node.Balanced unbalancedTree.root ∧
      (∃ t1, unbalancedTree.insert 0 = some t1) ∧ (∃ t1, unbalancedTree.erase 8 = some t1) :=
  ⟨unbalancedTree_reachable,
    fun hb => absurd hb.1.2.2.2 (by decide),
    rebalancing_never_fails.2.2.2.1 unbalancedTree unbalancedTree_reachable 0 |>.1,
    rebalancing_never_fails.2.2.2.1 unbalancedTree unbalancedTree_reachable 8 |>.2⟩

/-! ## Clearing -/

namespace AVLTree

theorem nodeCount_eq_length : ∀ n : Node, nodeCount n = (Node.toList n).length
  | Node.nil => rfl
  | Node.mk l r v c h s => by
    simp only [nodeCount, Node.toList_mk, List.length_append, List.length_cons,
      nodeCount_eq_length l, nodeCount_eq_length r]
    omega

theorem pushIfNotNull_ne_nil {p : Node} {stack : List Node}
    (h : ∀ n ∈ stack, n ≠ Node.nil) : ∀ n ∈ pushIfNotNull p stack, n ≠ Node.nil := by
  cases p with
  | nil => exact h
  | mk l r v c h1 s =>
    intro n hn
    rcases List.mem_cons.1 hn with rfl | hn
    · simp
    · exact h n hn

theorem pushIfNotNull_nodeCount (p : Node) (stack : List Node) :
    ((pushIfNotNull p stack).map nodeCount).sum = nodeCount p + (stack.map nodeCount).sum := by
  cases p with
  | nil => simp [pushIfNotNull, nodeCount]
  | mk l r v c h s => simp [pushIfNotNull]

theorem clearLoop_spec : ∀ (fuel : Nat) (stack : List Node) (size : Int),
    (∀ n ∈ stack, n ≠ Node.nil) → (stack.map nodeCount).sum ≤ fuel →
    clearLoop fuel stack size = some (size - ((stack.map nodeCount).sum : Nat))
  | 0, [], size, _, _ => by simp [clearLoop]
  | fuel + 1, [], size, _, _ => by simp [clearLoop]
  | 0, Node.nil :: stack, size, hne, _ => absurd rfl (hne Node.nil (by simp))
  | 0, Node.mk l r v c h s :: stack, size, _, hle => by
    simp [nodeCount] at hle
  | fuel + 1, Node.nil :: stack, size, hne, _ => absurd rfl (hne Node.nil (by simp))
  | fuel + 1, Node.mk l r v c h s :: stack, size, hne, hle => by
    have hst : ∀ n ∈ stack, n ≠ Node.nil := fun n hn => hne n (List.mem_cons_of_mem _ hn)
    have hsum := pushIfNotNull_nodeCount r (pushIfNotNull l stack)
    rw [pushIfNotNull_nodeCount l stack] at hsum
    simp only [List.map_cons, List.sum_cons, nodeCount] at hle ⊢
    have ih := clearLoop_spec fuel (pushIfNotNull r (pushIfNotNull l stack)) (size - 1)
      (pushIfNotNull_ne_nil (pushIfNotNull_ne_nil hst)) (by omega)
    simp only [clearLoop]
    rw [ih, hsum]
    congr 1
    push_cast
    ring

theorem clear_spec {t : AVLTree} (hinv : t.Inv) : t.clear = some new := by
  obtain ⟨hn, -, hs⟩ := hinv
  have hne : ∀ n ∈ pushIfNotNull t.root [], n ≠ Node.nil :=
    pushIfNotNull_ne_nil (fun n hn => absurd hn (List.not_mem_nil n))
  have hsum : ((pushIfNotNull t.root []).map nodeCount).sum = nodeCount t.root := by
    rw [pushIfNotNull_nodeCount]
    simp
  have h := clearLoop_spec (nodeCount t.root) (pushIfNotNull t.root []) t._size hne
    (le_of_eq hsum)
  unfold clear
  rw [h, hsum, nodeCount_eq_length, hs, Node.countOr0_eq_length hn]
  simp [new]

end AVLTree

/-- C20: for every reachable tree, `clear()` returns and leaves the tree empty: the root is
absent, `size() == 0` and `empty()` is true; the cleared tree is the newly constructed
tree, so every subsequent sequence of calls behaves on it as on a new tree. -/
theorem clear_leaves_new_tree (t : AVLTree) (ht : Reachable t) :
    ∃ t1, t.clear = some t1 ∧ t1.root = Node.nil ∧ t1.size = 0 ∧ t1.empty = true ∧
      t1 = AVLTree.new ∧ ∀ ops : List Op, run ops t1 = run ops AVLTree.new :=
  ⟨AVLTree.new, AVLTree.clear_spec ht.inv, rfl, rfl, rfl, rfl, fun _ => rfl⟩

theorem clear_leaves_new_tree_witness :
    Reachable scenarioTree ∧
      ∃ t1, scenarioTree.clear = some t1 ∧ t1.root = Node.nil ∧ t1.size = 0 ∧
        t1.empty = true ∧ t1 = AVLTree.new ∧
        ∀ ops : List Op, run ops t1 = run ops AVLTree.new :=
  ⟨scenarioTree_reachable, clear_leaves_new_tree scenarioTree scenarioTree_reachable⟩

end AVL
